import Mathlib

/-!
Shallow embedding of the `Nexus_Domain_Organization` scripts
(`scripts/validate.py`, `scripts/sync_taxonomy.py`,
`scripts/export_domain_subdomain_indicator.py`, `scripts/csv_to_markmap.py`,
`scripts/migrate_subdomains.py`) and proofs about them.

Modelling conventions:
* YAML values produced by `yaml.safe_load` are modelled by the inductive
  `Yaml` (mapping keys are already strings; Python applies `str()` to keys
  and the scripts only ever use string keys).
* Python strings are Lean `String`s; operations (`strip`, `lower`,
  `startswith`, `in`, slicing) are implemented on the underlying character
  list so that they compute by kernel reduction.  Python compares strings
  by code points, which is the lexicographic order on `List Char`.
* Python sets are modelled as insertion-ordered duplicate-free lists;
  only membership and sorted iteration are used by the scripts, and both
  agree with this model.
* `sorted(...)` is modelled by the stable `List.insertionSort` (CPython's
  sort is stable; a stable insertion sort has the same behaviour on the
  keys used here).
* Reading a file either fails (an exception carrying a message) or yields
  a parsed document: `FileRead`.
-/

/-- YAML scalar / collection values as returned by `yaml.safe_load`.
Floats and dates are not used by any claim and are omitted. -/
inductive Yaml where
  | nul
  | bool (b : Bool)
  | int (n : Int)
  | str (s : String)
  | list (xs : List Yaml)
  | map (kvs : List (String × Yaml))

/-- Python whitespace for `str.strip()` (ASCII fragment). -/
def pyIsSpace (c : Char) : Bool :=
  c = ' ' || c = '\t' || c = '\n' || c = '\r' || c.toNat = 11 || c.toNat = 12

/-- Python `str.strip()`. -/
def pyStrip (s : String) : String :=
  ⟨((s.data.dropWhile pyIsSpace).reverse.dropWhile pyIsSpace).reverse⟩

/-- Python `str.lower()` (ASCII-faithful). -/
def pyLower (s : String) : String :=
  ⟨s.data.map Char.toLower⟩

/-- Python `s.startswith(pre)`. -/
def pyStartsWith (s pre : String) : Bool :=
  pre.data.isPrefixOf s.data

/-- Python `c in s` for a single character `c` (used only as `"." in k`). -/
def pyHasChar (s : String) (c : Char) : Bool :=
  s.data.contains c

/-- Python `k.split(".", 1)[0]`: the text before the first dot. -/
def keyDomainOf (k : String) : String :=
  ⟨k.data.takeWhile (fun c => !(c = '.'))⟩

/-- Python `k.split(".", 1)[1]`: the text after the first dot (the keys fed
to it always contain a dot). -/
def keyTailOf (k : String) : String :=
  ⟨k.data.drop ((k.data.takeWhile (fun c => !(c = '.'))).length + 1)⟩

/-- Adding an element to a Python set, modelled as an insertion-ordered
duplicate-free list. -/
def addUnique (l : List String) (s : String) : List String :=
  if s ∈ l then l else l ++ [s]

/-- Code-point order on strings (Python `<=` on `str`). -/
def strDataLe (a b : String) : Prop := a.data ≤ b.data

instance : DecidableRel strDataLe :=
  fun a b => inferInstanceAs (Decidable (a.data ≤ b.data))

instance : IsTotal String strDataLe :=
  ⟨fun a b => le_total a.data b.data⟩

instance : IsTrans String strDataLe :=
  ⟨fun _ _ _ h₁ h₂ => le_trans h₁ h₂⟩

/-- Python `sorted(...)` on strings. -/
def sortedStrings (l : List String) : List String :=
  List.insertionSort strDataLe l

/-- Python truthiness of a YAML value. -/
def Yaml.truthy : Yaml → Bool
  | .nul => false
  | .bool b => b
  | .int n => !(n = 0)
  | .str s => !s.data.isEmpty
  | .list xs => !xs.isEmpty
  | .map kvs => !kvs.isEmpty

/-- Python `str()` of a YAML-loaded value.  Scalars are rendered exactly;
for containers (never hit by the scripts on the data the claims concern)
a fixed placeholder rendering is used. -/
def Yaml.toStr : Yaml → String
  | .nul => "None"
  | .bool b => if b then "True" else "False"
  | .int n => toString n
  | .str s => s
  | .list _ => "[...]"
  | .map _ => "\x7b...\x7d"

/-- Python `doc.get(k)` for a parsed YAML document: `none` when the key is
absent or the document is not a mapping. -/
def Yaml.get : Yaml → String → Option Yaml
  | .map kvs, k => kvs.findSome? (fun e => if e.1 = k then some e.2 else none)
  | _, _ => none

/-- Result of reading one YAML file: the exception text, or the document. -/
inductive FileRead where
  | err (msg : String)
  | ok (doc : Yaml)

/-- One `domains:` entry of `taxonomy/domains.yaml`:
`{name: <domain>, subdomains: [...]}` (after `ensure_taxonomy_struct`
has defaulted a missing/non-list `subdomains` to `[]`). -/
structure DomainNode where
  name : String
  subdomains : List String
deriving DecidableEq

/-! ## scripts/validate.py -/

/-- The two sets of `validate.load_taxonomy` that the checks actually read
(`allowed_subdomains_by_domain` is also built by the script but never used
by any check, so it is not carried here). -/
structure ValTax where
  allowedDomains : List String
  allowedSubdomainsFull : List String
deriving DecidableEq

/-- `validate.load_taxonomy`, over the parsed taxonomy nodes: skips nodes
with a falsy name; a subdomain entry that already starts with
`<name>.` is kept as a full key, otherwise `<name>.<entry>` is added. -/
def load_taxonomy (nodes : List DomainNode) : ValTax :=
  nodes.foldl
    (fun acc d =>
      if d.name.data.isEmpty then acc
      else
        { allowedDomains := addUnique acc.allowedDomains d.name,
          allowedSubdomainsFull :=
            d.subdomains.foldl
              (fun full s0 =>
                let s := pyStrip s0
                if s.data.isEmpty then full
                else if pyStartsWith s (d.name ++ ".") then addUnique full s
                else addUnique full (d.name ++ "." ++ s))
              acc.allowedSubdomainsFull })
    ⟨[], []⟩

/-- `validate.normalize_paper_domains`: the set of declared domains of a
paper (list field `domains` plus legacy string field `domain`). -/
def normalize_paper_domains (doc : Yaml) : List String :=
  let ds :=
    match doc.get "domains" with
    | some (.list xs) =>
        xs.foldl (fun acc x => if x.truthy then addUnique acc (pyStrip x.toStr) else acc) []
    | _ => []
  match doc.get "domain" with
  | some (.str s) => addUnique ds (pyStrip s)
  | _ => ds

/-- Assignment `mapping[k] = v` on a Python dict modelled as an
insertion-ordered association list: overwrite in place or append. -/
def alSet (m : List (String × Yaml)) (k : String) (v : Yaml) : List (String × Yaml) :=
  if (m.map Prod.fst).contains k then
    m.map (fun e => if e.1 = k then (e.1, v) else e)
  else m ++ [(k, v)]

/-- Loop body of `normalize_paper_subdomains` over a `subdomains:` mapping:
record every key in the mapping, and the stripped key in the dotted-key
set when it contains a dot. -/
def npsDict (acc : List String × List (String × Yaml)) :
    List (String × Yaml) → List String × List (String × Yaml)
  | [] => acc
  | kv :: rest =>
      let k := pyStrip kv.1
      npsDict (if pyHasChar k '.' then addUnique acc.1 k else acc.1, alSet acc.2 k kv.2) rest

/-- Loop body of `normalize_paper_subdomains` over a `subdomains:` list. -/
def npsList (acc : List String × List (String × Yaml)) :
    List Yaml → List String × List (String × Yaml)
  | [] => acc
  | x :: rest =>
      let k := pyStrip x.toStr
      npsList (if pyHasChar k '.' then addUnique acc.1 k else acc.1, alSet acc.2 k .nul) rest

/-- `validate.normalize_paper_subdomains`: the set of dotted keys and the
key-to-value mapping (group keys kept in the mapping, only dotted keys in
the first component). -/
def normalize_paper_subdomains (doc : Yaml) : List String × List (String × Yaml) :=
  match doc.get "subdomains" with
  | some (.map kvs) => npsDict ([], []) kvs
  | some (.list xs) => npsList ([], []) xs
  | _ =>
      match doc.get "subdomain" with
      | some (.str s) =>
          let k := pyStrip s
          (if pyHasChar k '.' then [k] else [], [(k, Yaml.nul)])
      | _ => ([], [])

/-- The `isinstance(val, (list, tuple, set, dict, str, int, float))` check of
`validate.validate_domains_and_subdomains`.  Every constructor of the
`Yaml` model is one of these Python types (`bool` is a subtype of `int`),
so the check never fails inside the model. -/
def yamlTypeOk : Yaml → Bool
  | .nul => true
  | .bool _ => true
  | .int _ => true
  | .str _ => true
  | .list _ => true
  | .map _ => true

/-- Python `repr` of a list of strings, as interpolated into the
"not in taxonomy" message by an f-string. -/
def pyListRender (xs : List String) : String :=
  "[" ++ String.intercalate ", " (xs.map (fun s => "'" ++ s ++ "'")) ++ "]"

/-- Loop of `validate_domains_and_subdomains` over the declared domains:
one "not in taxonomy" error per unknown domain. -/
def unknownDomainErrors (path : String) (tax : ValTax) : List String → List String
  | [] => []
  | d :: rest =>
      (if d ∈ tax.allowedDomains then []
       else [path ++ ": domain '" ++ d ++ "' not in taxonomy (allowed: " ++
         pyListRender (sortedStrings tax.allowedDomains) ++ ")."]) ++
      unknownDomainErrors path tax rest

/-- Loop of `validate_domains_and_subdomains` over the dotted subdomain
keys: a prefix-mismatch error, an unknown-key error and a value-type error
per key, in that order. -/
def subKeyErrors (path : String) (pd : List String) (tax : ValTax)
    (mp : List (String × Yaml)) : List String → List String
  | [] => []
  | key :: rest =>
      let dpre := keyDomainOf key
      (if dpre ∈ pd then []
       else [path ++ ": subdomain '" ++ key ++ "' has domain '" ++ dpre ++
         "' not listed in 'domains'."]) ++
      (if key ∈ tax.allowedSubdomainsFull then []
       else [path ++ ": subdomain '" ++ key ++ "' not in taxonomy."]) ++
      (match mp.findSome? (fun e => if e.1 = key then some e.2 else none) with
       | none => []
       | some .nul => []
       | some v =>
           if yamlTypeOk v then []
           else [path ++ ": subdomain '" ++ key ++
             "' value should be list/str/dict/number; got <other>."]) ++
      subKeyErrors path pd tax mp rest

/-- `validate.validate_domains_and_subdomains`. -/
def validate_domains_and_subdomains (path : String) (doc : Yaml) (tax : ValTax) :
    List String :=
  let pd := normalize_paper_domains doc
  let domErrs :=
    if pd.isEmpty then [path ++ ": missing 'domains' (or legacy 'domain')."]
    else unknownDomainErrors path tax pd
  let sub := normalize_paper_subdomains doc
  domErrs ++ subKeyErrors path pd tax sub.2 sub.1

/-- Outcome of `validate.main`: the three early fatal exits, or the final
report printing the accumulated error list. -/
inductive VResult where
  | missingSchema
  | missingTaxonomy
  | noFiles
  | report (errors : List String)
deriving DecidableEq

/-- Process exit code of `validate.main` for each outcome. -/
def VResult.exitCode : VResult → Nat
  | .report errs => if errs.isEmpty then 0 else 1
  | _ => 1

/-- The errors `validate.main` accumulates for a single paper file: the
"cannot read YAML" entry for an unreadable file, else the JSON-Schema
errors (the external `jsonschema` validator is abstracted as a function
`schemaCheck`) followed by the domain/subdomain errors. -/
def perFileErrors (schemaCheck : Yaml → List String) (tax : ValTax)
    (f : String × FileRead) : List String :=
  match f.2 with
  | .err m => [f.1 ++ ": cannot read YAML (" ++ m ++ ")"]
  | .ok doc =>
      (schemaCheck doc).map (fun m => f.1 ++ ": " ++ m) ++
        validate_domains_and_subdomains f.1 doc tax

/-- The per-file loop of `validate.main`: an unreadable file contributes
its "cannot read YAML" error and the loop continues with the next file. -/
def allFilesErrors (schemaCheck : Yaml → List String) (tax : ValTax) :
    List (String × FileRead) → List String
  | [] => []
  | f :: rest => perFileErrors schemaCheck tax f ++ allFilesErrors schemaCheck tax rest

/-- `validate.main`: fatal exits for a missing schema file, a missing
taxonomy file, or an empty `papers/` directory; otherwise one pass over
all files extending the accumulated error list. -/
def validateMain (schemaExists taxExists : Bool) (schemaCheck : Yaml → List String)
    (taxNodes : List DomainNode) (files : List (String × FileRead)) : VResult :=
  if !schemaExists then .missingSchema
  else if !taxExists then .missingTaxonomy
  else if files.isEmpty then .noFiles
  else .report (allFilesErrors schemaCheck (load_taxonomy taxNodes) files)

/-! ## scripts/export_domain_subdomain_indicator.py -/

/-- One row of `plot/domain_subdomain_indicator.csv`. -/
structure Row where
  domain : String
  subdomain : String
  indicator : String
  paper : String
deriving DecidableEq

/-- `export._normalize_indicator_item`: a dict contributes its truthy
`name` field stripped, anything else its stripped `str()` when non-empty. -/
def normalize_indicator_item (it : Yaml) : Option String :=
  match it with
  | .map kvs =>
      match (Yaml.map kvs).get "name" with
      | some name => if name.truthy then some (pyStrip name.toStr) else none
      | none => none
  | _ =>
      let s := pyStrip it.toStr
      if s.data.isEmpty then none else some s

/-- Assignment `m[k] = v` on the `subdomain_to_inds` dict. -/
def alSetInds (m : List (String × List String)) (k : String) (v : List String) :
    List (String × List String) :=
  if k ∈ m.map Prod.fst then m.map (fun e => if e.1 = k then (e.1, v) else e)
  else m ++ [(k, v)]

/-- Lookup `m.get(k)` on the `subdomain_to_inds` dict. -/
def alGetInds (m : List (String × List String)) (k : String) : Option (List String) :=
  m.findSome? (fun e => if e.1 = k then some e.2 else none)

/-- Python truthiness test used as `doc = load_yaml(p) or {}` followed by
`isinstance(doc, dict)`. -/
def Yaml.isMap : Yaml → Bool
  | .map _ => true
  | _ => false

/-- The indicator list extracted from a `subdomains:` mapping value
(`list` values contribute their normalized items, anything else none). -/
def indicatorsOfValue : Yaml → List String
  | .list items => items.filterMap normalize_indicator_item
  | _ => []

/-- The per-paper part of `export.collect_rows`: flatten one paper document
into `(domain, subdomain, indicator, paper)` rows. -/
def collect_rows_paper (onlyDotted : Bool) (stem : String) (doc0 : Yaml) : List Row :=
  let doc := if doc0.truthy then doc0 else Yaml.map []
  if !doc.isMap then []
  else
    let pDomains :=
      match doc.get "domains" with
      | some (.list xs) =>
          xs.foldl
            (fun acc x =>
              let s := pyStrip x.toStr
              if s.data.isEmpty then acc else acc ++ [s]) []
      | _ =>
          match doc.get "domain" with
          | some (.str s) => [pyStrip s]
          | _ => []
    let pDomains := if pDomains.isEmpty then ["(none)"] else pDomains
    let m : List (String × List String) :=
      match doc.get "subdomains" with
      | some (.map kvs) =>
          kvs.foldl
            (fun m kv =>
              let s := pyStrip kv.1
              if s.data.isEmpty then m else alSetInds m s (indicatorsOfValue kv.2)) []
      | some (.list xs) =>
          xs.foldl
            (fun m x =>
              let s := pyStrip x.toStr
              if s.data.isEmpty then m else alSetInds m s []) []
      | _ =>
          match doc.get "subdomain" with
          | some (.str s0) =>
              let s := pyStrip s0
              if s.data.isEmpty then [] else [(s, [])]
          | _ => []
    let topInds :=
      match doc.get "indicators" with
      | some v =>
          if v.truthy then
            match v with
            | .list xs => xs.filterMap normalize_indicator_item
            | _ => []
          else []
      | none => []
    let m := if onlyDotted && !m.isEmpty then m.filter (fun e => pyHasChar e.1 '.') else m
    let m := if m.isEmpty then [("(none)", [])] else m
    let aligned := pDomains.flatMap
      (fun d =>
        let matched := (m.map Prod.fst).filter
          (fun s => if s = "(none)" then true else pyStartsWith s (d ++ "."))
        let matched := if matched.isEmpty then ["(none)"] else matched
        matched.map (fun s => (d, s)))
    aligned.flatMap
      (fun p =>
        let indsHere := (alGetInds m p.2).getD []
        let indsHere :=
          if indsHere.isEmpty then (if topInds.isEmpty then ["(none)"] else topInds)
          else indsHere
        indsHere.map (fun ind => Row.mk p.1 p.2 ind stem))

/-- `export.collect_rows` over the (sorted) paper files, each given as its
filename stem and parsed document. -/
def collect_rows (papers : List (String × Yaml)) (onlyDotted : Bool) : List Row :=
  papers.flatMap (fun p => collect_rows_paper onlyDotted p.1 p.2)

/-- `df.drop_duplicates()`: keep the first occurrence of each row. -/
def dedupRows (rows : List Row) : List Row :=
  rows.foldl (fun acc r => if r ∈ acc then acc else acc ++ [r]) []

/-- Order of first appearance of each distinct domain
(`df["domain"].unique()`). -/
def uniqueInOrder (l : List String) : List String :=
  l.foldl addUnique []

/-- The fixed preferred domain order of `export.sort_frame` and
`csv_to_markmap._domain_categories`. -/
def baseDomainOrder : List String :=
  ["chemical", "physical", "climate", "social", "built"]

/-- Index of the first occurrence of `d`, or the length when absent
(pandas categorical code of `d` in a category list). -/
def listIndexOf : List String → String → Nat
  | [], _ => 0
  | x :: rest, d => if x = d then 0 else listIndexOf rest d + 1

/-- `export.sort_frame`: the category list `base + extras + ["(none)"]`,
extras being the alphabetically sorted non-base non-sentinel domains that
occur in the frame. -/
def domainCategories (rows : List Row) : List String :=
  let present := uniqueInOrder (rows.map Row.domain)
  let extras := sortedStrings (present.filter
    (fun d => if d ∈ baseDomainOrder then false else if d = "(none)" then false else true))
  baseDomainOrder ++ extras ++ ["(none)"]

/-- Pandas categorical code of a domain in the category list. -/
def catIndex (cats : List String) (d : String) : Nat :=
  listIndexOf cats d

/-- The mergesort key of `export.sort_frame`:
`(domain category code, subdomain, indicator, paper)` lexicographically,
strings compared by code points. -/
def rowKey (cats : List String) (r : Row) :
    Lex (Nat × Lex (List Char × Lex (List Char × List Char))) :=
  toLex (catIndex cats r.domain,
    toLex (r.subdomain.data, toLex (r.indicator.data, r.paper.data)))

/-- Comparison used by the stable sort of `export.sort_frame`. -/
def rowLe (cats : List String) (a b : Row) : Prop :=
  rowKey cats a ≤ rowKey cats b

instance (cats : List String) : DecidableRel (rowLe cats) :=
  fun a b => inferInstanceAs (Decidable (rowKey cats a ≤ rowKey cats b))

instance (cats : List String) : IsTotal Row (rowLe cats) :=
  ⟨fun a b => le_total (rowKey cats a) (rowKey cats b)⟩

instance (cats : List String) : IsTrans Row (rowLe cats) :=
  ⟨fun _ _ _ h₁ h₂ => le_trans h₁ h₂⟩

/-- `export.sort_frame`: stable sort by domain category, then subdomain,
indicator, paper. -/
def sort_frame (rows : List Row) : List Row :=
  List.insertionSort (rowLe (domainCategories rows)) rows

/-- The whole CSV pipeline of `export.main`: collect, drop duplicates,
sort. -/
def exportPipeline (papers : List (String × Yaml)) (onlyDotted : Bool) : List Row :=
  sort_frame (dedupRows (collect_rows papers onlyDotted))

/-! ## scripts/sync_taxonomy.py -/

/-- Lookup in the `idx` dictionary of `sync_taxonomy`: domain name to the
position of its node in the `domains` list.  Insertions cons to the front
and lookup takes the first hit, so later insertions shadow earlier ones,
exactly as Python dict assignment overwrites. -/
def idxOf : List (String × Nat) → String → Option Nat
  | [], _ => none
  | e :: rest, d => if e.1 = d then some e.2 else idxOf rest d

/-- The `idx` built by `ensure_taxonomy_struct`, indexing every node with
a truthy name by its position.  Bindings of later nodes stand in front of
earlier ones, so the first-hit lookup `idxOf` sees the latest assignment,
exactly as a Python dict whose keys are overwritten in node order. -/
def buildIdxFrom (pos : Nat) : List DomainNode → List (String × Nat)
  | [] => []
  | d :: rest =>
      buildIdxFrom (pos + 1) rest ++ (if d.name.data.isEmpty then [] else [(d.name, pos)])

/-- The full index of `ensure_taxonomy_struct`. -/
def buildIdx (nodes : List DomainNode) : List (String × Nat) :=
  buildIdxFrom 0 nodes

/-- What one successfully parsed mapping document adds to the accumulated
`(dotted_subdomains, domains_used)` sets in
`sync_taxonomy.collect_from_papers`. -/
def collectDoc (acc : List String × List String) (doc : Yaml) :
    List String × List String :=
  let du :=
    match doc.get "domains" with
    | some (.list xs) =>
        xs.foldl (fun du x => if x.truthy then addUnique du (pyStrip x.toStr) else du) acc.2
    | _ => acc.2
  let du :=
    match doc.get "domain" with
    | some (.str s) => addUnique du (pyStrip s)
    | _ => du
  let dotted :=
    match doc.get "subdomains" with
    | some (.map kvs) =>
        kvs.foldl
          (fun dt kv =>
            let k := pyStrip kv.1
            if pyHasChar k '.' then addUnique dt k else dt) acc.1
    | some (.list xs) =>
        xs.foldl
          (fun dt x =>
            let k := pyStrip x.toStr
            if pyHasChar k '.' then addUnique dt k else dt) acc.1
    | _ =>
        match doc.get "subdomain" with
        | some (.str s) =>
            let k := pyStrip s
            if pyHasChar k '.' then addUnique acc.1 k else acc.1
        | _ => acc.1
  (dotted, du)

/-- The scan loop of `collect_from_papers`: unreadable files are skipped
with a warning and the scan continues; non-mapping documents are skipped. -/
def collectAux (acc : List String × List String) :
    List (String × FileRead) → List String × List String
  | [] => acc
  | f :: rest =>
      match f.2 with
      | .err _ => collectAux acc rest
      | .ok doc => if doc.isMap then collectAux (collectDoc acc doc) rest
                   else collectAux acc rest

/-- `sync_taxonomy.collect_from_papers`: returns the two sets
`(dotted_subdomains, domains_used)` scanned from the paper files. -/
def collect_from_papers (files : List (String × FileRead)) :
    List String × List String :=
  collectAux ([], []) files

/-- The mutable state of `sync_taxonomy`: the node list of the taxonomy,
the name index, and the two report lists. -/
structure SyncState where
  nodes : List DomainNode
  idx : List (String × Nat)
  addedDomains : List String
  addedSubs : List String

/-- The first phase of `sync_taxonomy`: ensure every domain used by some
paper has a node, appending missing nodes. -/
def addDomainsPhase (st : SyncState) : List String → SyncState
  | [] => st
  | d :: rest =>
      addDomainsPhase
        (match idxOf st.idx d with
         | some _ => st
         | none =>
             { nodes := st.nodes ++ [⟨d, []⟩],
               idx := (d, st.nodes.length) :: st.idx,
               addedDomains := st.addedDomains ++ [d],
               addedSubs := st.addedSubs })
        rest

/-- One dotted key written back into the taxonomy (second phase of
`sync_taxonomy`): create the domain node if missing, then append the
token (tail or full key) when the node's list does not yet hold it. -/
def addSubStep (writeFullKeys : Bool) (st : SyncState) (full : String) : SyncState :=
  let domain := keyDomainOf full
  let tail := keyTailOf full
  let st :=
    match idxOf st.idx domain with
    | some _ => st
    | none =>
        { nodes := st.nodes ++ [⟨domain, []⟩],
          idx := (domain, st.nodes.length) :: st.idx,
          addedDomains := st.addedDomains ++ [domain],
          addedSubs := st.addedSubs }
  match idxOf st.idx domain with
  | none => st
  | some i =>
      match st.nodes[i]? with
      | none => st
      | some node =>
          let token := if writeFullKeys then full else tail
          if token ∈ node.subdomains then st
          else
            { nodes := st.nodes.set i ⟨node.name, node.subdomains ++ [token]⟩,
              idx := st.idx,
              addedDomains := st.addedDomains,
              addedSubs := st.addedSubs ++ [domain ++ "." ++ tail] }

/-- The second phase of `sync_taxonomy` over the sorted dotted keys. -/
def addSubsPhase (writeFullKeys : Bool) (st : SyncState) : List String → SyncState
  | [] => st
  | k :: rest => addSubsPhase writeFullKeys (addSubStep writeFullKeys st k) rest

/-- Sort key `lambda s: str(s).lower()` used on subdomain lists. -/
def lowerLe (a b : String) : Prop := (pyLower a).data ≤ (pyLower b).data

instance : DecidableRel lowerLe :=
  fun a b => inferInstanceAs (Decidable ((pyLower a).data ≤ (pyLower b).data))

instance : IsTotal String lowerLe :=
  ⟨fun a b => le_total (pyLower a).data (pyLower b).data⟩

instance : IsTrans String lowerLe :=
  ⟨fun _ _ _ h₁ h₂ => le_trans h₁ h₂⟩

/-- Final node order, `sorted(..., key=lambda x: x.get("name", ""))`. -/
def nodeNameLe (a b : DomainNode) : Prop := a.name.data ≤ b.name.data

instance : DecidableRel nodeNameLe :=
  fun a b => inferInstanceAs (Decidable (a.name.data ≤ b.name.data))

instance : IsTotal DomainNode nodeNameLe :=
  ⟨fun a b => le_total a.name.data b.name.data⟩

instance : IsTrans DomainNode nodeNameLe :=
  ⟨fun _ _ _ h₁ h₂ => le_trans h₁ h₂⟩

/-- Per-kept-node tidy of the dedup loop:
`list(dict.fromkeys(subdomains))` (keep first occurrences) then
`sorted(..., key=lower)`. -/
def tidyNode (d : DomainNode) : DomainNode :=
  ⟨d.name, List.insertionSort lowerLe (uniqueInOrder d.subdomains)⟩

/-- The dedup loop over `tax["domains"]`: keep the first node of each
name (the `seen` set), tidying the subdomain list of every kept node. -/
def dedupNodesAux (seen : List String) : List DomainNode → List DomainNode
  | [] => []
  | d :: rest =>
      if d.name ∈ seen then dedupNodesAux seen rest
      else tidyNode d :: dedupNodesAux (seen ++ [d.name]) rest

/-- `sync_taxonomy.sync_taxonomy` as a function from the loaded taxonomy
nodes and the scanned papers to the new taxonomy nodes plus the
`added_domains` and `added_subdomains` report lists.  The `version` field
of the YAML file is set once and never changed by the script; it is not
modelled. -/
def sync_taxonomy (taxNodes : List DomainNode) (papers : List (String × FileRead))
    (writeFullKeys : Bool) : List DomainNode × List String × List String :=
  let st0 : SyncState := ⟨taxNodes, buildIdx taxNodes, [], []⟩
  let col := collect_from_papers papers
  let st1 := addDomainsPhase st0 (sortedStrings col.2)
  let st2 := addSubsPhase writeFullKeys st1 (sortedStrings col.1)
  (List.insertionSort nodeNameLe (dedupNodesAux [] st2.nodes),
   st2.addedDomains, st2.addedSubs)

/-- One invocation of the script against the taxonomy file: a missing file
loads as the empty taxonomy; with `--dry-run` the file is left untouched,
otherwise the new taxonomy is written (YAML dump/load round-trips the
node list). -/
def syncRun (fileTax : Option (List DomainNode)) (papers : List (String × FileRead))
    (writeFullKeys dryRun : Bool) :
    Option (List DomainNode) × List String × List String :=
  let r := sync_taxonomy (fileTax.getD []) papers writeFullKeys
  (if dryRun then fileTax else some r.1, r.2.1, r.2.2)

/-! ## scripts/csv_to_markmap.py -/

/-- The required columns of `csv_to_markmap._load_csv`. -/
def reqCols : List String := ["domain", "subdomain", "indicator", "paper"]

/-- A parsed CSV: the header and the cell rows, cells as strings. -/
structure Csv where
  header : List String
  cells : List (List String)
deriving DecidableEq

/-- The `missing` column list computed by `_load_csv`. -/
def missingCols (c : Csv) : List String :=
  reqCols.filter (fun r => if r ∈ c.header then false else true)

/-- `csv_to_markmap._load_csv`: a missing file or missing required columns
raise, and `main` catches the exception, prints it to stderr and exits 1
before writing anything.  The cleaning of the successful frame and the
Markdown/HTML rendering are needed by no claim and are not modelled: the
successful branch carries the parsed frame through. -/
def loadCsv (csvExists : Bool) (csvPath : String) (c : Csv) : Except String Csv :=
  if !csvExists then .error ("CSV not found: " ++ csvPath)
  else if !(missingCols c).isEmpty then
    .error ("CSV missing required columns: " ++ pyListRender (missingCols c))
  else .ok c

/-- Outcome of `csv_to_markmap.main`: the fatal exit (stderr message,
status 1, no output files) or a successful render. -/
inductive MarkmapResult where
  | fatal (msg : String)
  | rendered (c : Csv)
deriving DecidableEq

/-- `csv_to_markmap.main` up to the point the claims concern. -/
def markmapMain (csvExists : Bool) (csvPath : String) (c : Csv) : MarkmapResult :=
  match loadCsv csvExists csvPath c with
  | .error e => .fatal e
  | .ok df => .rendered df

/-- Process exit code of `csv_to_markmap.main`. -/
def MarkmapResult.exitCode : MarkmapResult → Nat
  | .fatal _ => 1
  | .rendered _ => 0

/-- The domain order the spec describes: the five preferred domains first
in their fixed order, then every other domain alphabetically, the sentinel
`"(none)"` strictly last. -/
def claimDomainRank (d : String) : Lex (Nat × Lex (Nat × List Char)) :=
  if d = "(none)" then toLex (2, toLex (0, []))
  else if d ∈ baseDomainOrder then toLex (0, toLex (listIndexOf baseDomainOrder d, []))
  else toLex (1, toLex (0, d.data))

/-- Comparison of two domains in the spec-described order. -/
def claimDomainLe (d₁ d₂ : String) : Prop :=
  claimDomainRank d₁ ≤ claimDomainRank d₂

/-! ## scripts/migrate_subdomains.py -/

/-- Python regex `\w` (ASCII fragment; the RULES patterns are ASCII). -/
def isWordChar (c : Char) : Bool := c.isAlphanum || c = '_'

/-- The fragment of Python regular expressions used by the RULES table:
literals, the classes `\w` and `\s`, concatenation, alternation, `?` on a
single atom, `*` on a class, and the word-boundary assertion `\b`. -/
inductive Rx where
  | eps
  | lit (c : Char)
  | cls (word : Bool)
  | seq (a b : Rx)
  | alt (a b : Rx)
  | opt (a : Rx)
  | starCls (word : Bool)
  | wb

/-- Membership in the classes `\w` / `\s`. -/
def clsMatch (word : Bool) (c : Char) : Bool :=
  if word then isWordChar c else pyIsSpace c

/-- The word-boundary test between the previous character and the rest. -/
def atBoundary (prev : Option Char) (s : List Char) : Bool :=
  (match prev with | none => false | some c => isWordChar c) !=
  (match s with | [] => false | c :: _ => isWordChar c)

/-- All ways a starred class consumes a prefix of the input: every split
point within the maximal run of matching characters. -/
def starSplits (word : Bool) (prev : Option Char) :
    List Char → List (Option Char × List Char)
  | [] => [(prev, [])]
  | c :: rest =>
      (prev, c :: rest) :: (if clsMatch word c then starSplits word (some c) rest else [])

/-- The backtracking matcher: all `(previous character, remaining input)`
states after matching `r` at the start of `s`. -/
def rxMatch : Rx → Option Char → List Char → List (Option Char × List Char)
  | .eps, p, s => [(p, s)]
  | .lit _, _, [] => []
  | .lit c, _, x :: xs => if x = c then [(some x, xs)] else []
  | .cls _, _, [] => []
  | .cls w, _, x :: xs => if clsMatch w x then [(some x, xs)] else []
  | .seq a b, p, s => (rxMatch a p s).flatMap (fun ps => rxMatch b ps.1 ps.2)
  | .alt a b, p, s => rxMatch a p s ++ rxMatch b p s
  | .opt a, p, s => rxMatch a p s ++ [(p, s)]
  | .starCls w, p, s => starSplits w p s
  | .wb, p, s => if atBoundary p s then [(p, s)] else []

/-- `re.search`: try to match at each position from the left. -/
def rxSearchAux (r : Rx) : Option Char → List Char → Bool
  | p, [] => !(rxMatch r p []).isEmpty
  | p, c :: cs =>
      if (rxMatch r p (c :: cs)).isEmpty then rxSearchAux r (some c) cs else true

/-- Whether the pattern matches anywhere in the string. -/
def rxSearch (r : Rx) (s : String) : Bool :=
  rxSearchAux r none s.data

/-- A literal word as a pattern. -/
def rlit (s : String) : Rx :=
  s.data.foldr (fun c acc => Rx.seq (Rx.lit c) acc) Rx.eps

/-- Alternation of a list of branches, left to right. -/
def ralts : List Rx → Rx
  | [] => Rx.eps
  | [r] => r
  | r :: rest => Rx.alt r (ralts rest)

/-- The ordered keyword rules of `migrate_subdomains.RULES`, each regular
expression transcribed into the `Rx` fragment. -/
def RULES : List (Rx × String) := [
  (ralts [Rx.seq .wb (.seq (rlit "pm2") (.seq (.opt (.lit '.')) (.seq (.lit '5') .wb))),
          Rx.seq .wb (.seq (rlit "no2") .wb),
          Rx.seq (rlit "air") (.seq (.starCls false) (rlit "pollution")),
          rlit "ambient"], "chemical.airpollution.ambient"),
  (ralts [Rx.seq .wb (.seq (rlit "lead") .wb),
          Rx.seq .wb (.seq (rlit "pb") .wb),
          rlit "mercury", rlit "hg", rlit "cadmium", rlit "cd", rlit "arsenic",
          rlit "as", rlit "molybdenum"], "chemical.metals"),
  (ralts [rlit "pfas", rlit "pfoa", rlit "pfos", rlit "pfhxs", rlit "pfna",
          rlit "pfunda"], "chemical.persistent"),
  (ralts [rlit "pcb", rlit "pbde", rlit "ddt", rlit "dde", rlit "hcb",
          rlit "organochlor"], "chemical.persistent"),
  (ralts [rlit "phthalate", rlit "dehp", rlit "mbzp", rlit "mibp", rlit "mnbp"],
    "chemical.phthalates"),
  (ralts [rlit "phenol", rlit "bisphenol", rlit "bpa", rlit "paraben",
          rlit "triclosan"], "chemical.phenols"),
  (ralts [Rx.seq .wb (.seq (rlit "noise") .wb), rlit "dnl",
          Rx.seq (.lit 'l') (.seq (.opt (.cls true)) (rlit "night"))], "physical.noise"),
  (ralts [Rx.seq (rlit "temperature") .wb, rlit "heat", rlit "cold",
          rlit "humidity", rlit "meteorolog"], "climate.meteorological"),
  (ralts [rlit "extreme", rlit "wildfire", rlit "drought", rlit "heatwave",
          Rx.seq (rlit "cold") (.seq (.starCls false) (rlit "snap"))], "climate.extremes"),
  (ralts [rlit "ndvi", Rx.seq (rlit "green") (.seq (.starCls false) (rlit "space")),
          Rx.seq (rlit "blue") (.seq (.starCls false) (rlit "space")), rlit "park",
          rlit "greenness"], "built.environment"),
  (ralts [rlit "walkability", rlit "connectivity",
          Rx.seq (rlit "building") (.seq (.starCls false) (rlit "density")),
          Rx.seq (rlit "urban") (.seq (.starCls false) (rlit "design")),
          Rx.seq (rlit "land") (.seq (.starCls false) (rlit "use")),
          rlit "traffic"], "built.struct.urbandesign"),
  (ralts [rlit "bus", rlit "transit", Rx.seq (rlit "access") .wb], "built.access"),
  (ralts [rlit "microbiome", rlit "16s", rlit "shotgun"], "biological.microbiome"),
  (ralts [rlit "omics", rlit "genomic", rlit "epigenomic", rlit "transcriptomic",
          rlit "proteomic", rlit "metabolomic"], "biological.omics"),
  (ralts [rlit "smok", rlit "alcohol", rlit "diet",
          Rx.seq (rlit "physical") (.seq (.starCls false) (rlit "activity")),
          rlit "folic"], "social.lifestyle"),
  (ralts [rlit "demographic", rlit "cultur"], "social.cultural.demographics"),
  (ralts [rlit "stress", rlit "inequity", rlit "injustice", rlit "allostatic"],
    "social.economic.stressors")]

/-- `migrate_subdomains.guess_key`: lowercase the item and return the key
of the first rule whose pattern matches; `None` when no rule matches. -/
def guess_key (item : String) : Option String :=
  RULES.findSome? (fun rule => if rxSearch rule.1 (pyLower item) then some rule.2 else none)

/-- `migrate_subdomains.ensure_list`. -/
def ensure_list : Yaml → List Yaml
  | .nul => []
  | .list xs => xs
  | v => [v]

/-- `normalized.setdefault(k, []); normalized[k].extend(xs)` on the
insertion-ordered dict of the migration. -/
def alExtend (m : List (String × List Yaml)) (k : String) (xs : List Yaml) :
    List (String × List Yaml) :=
  if k ∈ m.map Prod.fst then m.map (fun e => if e.1 = k then (e.1, e.2 ++ xs) else e)
  else m ++ [(k, xs)]

/-- The inner loop of `migrate_subdomains.main` over the items of a group
(undotted) key: classified items go under their guessed key, unmatched
ones into the `<group>.UNMAPPED` bucket. -/
def migrateItems (k : String) (m : List (String × List Yaml)) :
    List Yaml → List (String × List Yaml)
  | [] => m
  | it :: rest =>
      migrateItems k
        (match guess_key it.toStr with
         | some key => alExtend m key [it]
         | none => alExtend m (k ++ ".UNMAPPED") [it]) rest

/-- One `subdomains` entry of the migration loop: dotted keys are copied,
group keys classified item by item. -/
def migrateStep (m : List (String × List Yaml)) (kv : String × Yaml) :
    List (String × List Yaml) :=
  let items := ensure_list kv.2
  if pyHasChar kv.1 '.' then alExtend m kv.1 items
  else migrateItems kv.1 m items

/-- Per-key deduplication of the migration: keep the first occurrence of
each `str(x)` (the `seen` set). -/
def dedupByStrAux (vals : List Yaml) (seen : List String) : List Yaml → List Yaml
  | [] => vals
  | x :: rest =>
      if x.toStr ∈ seen then dedupByStrAux vals seen rest
      else dedupByStrAux (vals ++ [x]) (seen ++ [x.toStr]) rest

/-- `migrate_subdomains` value deduplication. -/
def dedupByStr (xs : List Yaml) : List Yaml :=
  dedupByStrAux [] [] xs

/-- Sort key `lambda z: str(z).lower()` of the migration values. -/
def yamlLowerLe (a b : Yaml) : Prop :=
  (pyLower a.toStr).data ≤ (pyLower b.toStr).data

instance : DecidableRel yamlLowerLe :=
  fun a b => inferInstanceAs (Decidable ((pyLower a.toStr).data ≤ (pyLower b.toStr).data))

instance : IsTotal Yaml yamlLowerLe :=
  ⟨fun a b => le_total (pyLower a.toStr).data (pyLower b.toStr).data⟩

instance : IsTrans Yaml yamlLowerLe :=
  ⟨fun _ _ _ h₁ h₂ => le_trans h₁ h₂⟩

/-- Dedup then sort one normalized value list. -/
def tidyEntry (xs : List Yaml) : List Yaml :=
  List.insertionSort yamlLowerLe (dedupByStr xs)

/-- Order of `dict(sorted(normalized.items()))` (keys are unique, so the
tuple comparison is decided by the keys). -/
def entryKeyLe (a b : String × List Yaml) : Prop := a.1.data ≤ b.1.data

instance : DecidableRel entryKeyLe :=
  fun a b => inferInstanceAs (Decidable (a.1.data ≤ b.1.data))

instance : IsTotal (String × List Yaml) entryKeyLe :=
  ⟨fun a b => le_total a.1.data b.1.data⟩

instance : IsTrans (String × List Yaml) entryKeyLe :=
  ⟨fun _ _ _ h₁ h₂ => le_trans h₁ h₂⟩

/-- The whole per-document normalization of `migrate_subdomains.main`:
the classification loop, then per-key dedup and sort, then the sorted
dict written back as `subdomains_normalized`. -/
def migrateDoc (subs : List (String × Yaml)) : List (String × List Yaml) :=
  let n := subs.foldl migrateStep []
  List.insertionSort entryKeyLe (n.map (fun e => (e.1, tidyEntry e.2)))

/-- Positional preservation: the first `orig.length` nodes keep their
names, and their subdomain lists only grow. -/
def keepsPrefix (orig cur : List DomainNode) : Prop :=
  ∃ hlen : orig.length ≤ cur.length,
    ∀ j (h : j < orig.length),
      (cur.get ⟨j, lt_of_lt_of_le h hlen⟩).name = (orig.get ⟨j, h⟩).name ∧
      ∀ s ∈ (orig.get ⟨j, h⟩).subdomains, s ∈ (cur.get ⟨j, lt_of_lt_of_le h hlen⟩).subdomains

/-- Some node of name `d` exists. -/
def hasName (nodes : List DomainNode) (d : String) : Prop :=
  ∃ n ∈ nodes, n.name = d

/-- Some node of name `d` exists and holds the token `t`. -/
def hasToken (nodes : List DomainNode) (d t : String) : Prop :=
  ∃ n ∈ nodes, n.name = d ∧ t ∈ n.subdomains

/-- The invariant of the sync phases: the index points at nodes of the
right name, names are truthy and pairwise distinct, and every node is
indexed. -/
structure SyncInv (nodes : List DomainNode) (idx : List (String × Nat)) : Prop where
  idxOk : ∀ d i, idxOf idx d = some i →
    ∃ h : i < nodes.length, (nodes.get ⟨i, h⟩).name = d
  namesNe : ∀ n ∈ nodes, n.name ≠ ""
  nodup : (nodes.map DomainNode.name).Nodup
  compl : ∀ n ∈ nodes, (idxOf idx n.name).isSome

/-! ## Theorems -/

/-- Membership in the set-insertion helper. -/
theorem mem_addUnique {l : List String} {s x : String} (h : x ∈ addUnique l s) :
    x = s ∨ x ∈ l := by
  unfold addUnique at h
  split at h
  · exact Or.inr h
  · rcases List.mem_append.mp h with h | h
    · exact Or.inr h
    · exact Or.inl (List.mem_singleton.mp h)

/-- The element just inserted is a member. -/
theorem self_mem_addUnique (l : List String) (s : String) : s ∈ addUnique l s := by
  unfold addUnique
  split
  · assumption
  · simp

/-- Previous members survive the set insertion. -/
theorem mem_addUnique_of_mem {l : List String} (s : String) {x : String}
    (h : x ∈ l) : x ∈ addUnique l s := by
  unfold addUnique
  split
  · exact h
  · exact List.mem_append_left _ h

/-- The per-file loop of `validate.main` is exactly the concatenation of
each file's own error list. -/
theorem allFilesErrors_eq_flatMap (sc : Yaml → List String) (tax : ValTax) :
    ∀ files, allFilesErrors sc tax files = files.flatMap (perFileErrors sc tax)
  | [] => rfl
  | f :: rest => by
      rw [allFilesErrors, allFilesErrors_eq_flatMap sc tax rest, List.flatMap_cons]

/-- The claim C1: with the schema and taxonomy files present and at least
one paper file, `validate.main` runs every file, reports the concatenation
of all per-file error lists (schema violations, unknown domains, bad
subdomain keys, unreadable-YAML errors) in one final report, and exits 0
exactly when no error occurred and 1 exactly when some error occurred;
an unreadable or invalid file never stops the remaining files, since every
file's errors appear in the report. -/
theorem validate_main_accumulates (sc : Yaml → List String)
    (taxNodes : List DomainNode) (files : List (String × FileRead))
    (hne : files ≠ []) :
    validateMain true true sc taxNodes files =
      .report (files.flatMap (perFileErrors sc (load_taxonomy taxNodes))) ∧
    ((validateMain true true sc taxNodes files).exitCode = 0 ↔
      files.flatMap (perFileErrors sc (load_taxonomy taxNodes)) = []) ∧
    ((validateMain true true sc taxNodes files).exitCode = 1 ↔
      files.flatMap (perFileErrors sc (load_taxonomy taxNodes)) ≠ []) := by
  have hmain : validateMain true true sc taxNodes files =
      .report (files.flatMap (perFileErrors sc (load_taxonomy taxNodes))) := by
    unfold validateMain
    rw [← allFilesErrors_eq_flatMap]
    simp [List.isEmpty_iff, hne]
  refine ⟨hmain, ?_, ?_⟩
  · rw [hmain]
    unfold VResult.exitCode
    split <;> simp_all [List.isEmpty_iff]
  · rw [hmain]
    unfold VResult.exitCode
    split <;> simp_all [List.isEmpty_iff]

/-- Witness for `validate_main_accumulates` at a concrete one-file input. -/
theorem validate_main_accumulates_witness :
    ([("p", FileRead.ok (Yaml.map []))] ≠ ([] : List (String × FileRead))) ∧
    validateMain true true (fun _ => []) [] [("p", FileRead.ok (Yaml.map []))] =
      .report ([("p", FileRead.ok (Yaml.map []))].flatMap
        (perFileErrors (fun _ => []) (load_taxonomy []))) :=
  ⟨List.cons_ne_nil _ _,
   (validate_main_accumulates (fun _ => []) [] _ (List.cons_ne_nil _ _)).1⟩

/-- The claim C10: with schema and taxonomy present but no paper files at
all, `validate.main` takes the warning branch and exits with status 1 even
though no per-paper validation error occurred. -/
theorem no_yaml_files_exit_one (sc : Yaml → List String)
    (taxNodes : List DomainNode) :
    validateMain true true sc taxNodes [] = .noFiles ∧
    (validateMain true true sc taxNodes []).exitCode = 1 :=
  ⟨rfl, rfl⟩

/-- The claim C6: a paper record with neither a `domains` nor a legacy
`domain` field gets the "missing 'domains'" error, and when such a file is
among the validated files the whole run exits with status 1. -/
theorem missing_domains_error (path : String) (doc : Yaml)
    (sc : Yaml → List String) (taxNodes : List DomainNode)
    (files : List (String × FileRead))
    (h1 : doc.get "domains" = none) (h2 : doc.get "domain" = none)
    (hmem : (path, FileRead.ok doc) ∈ files) :
    (path ++ ": missing 'domains' (or legacy 'domain').") ∈
      validate_domains_and_subdomains path doc (load_taxonomy taxNodes) ∧
    (validateMain true true sc taxNodes files).exitCode = 1 := by
  have hpd : normalize_paper_domains doc = [] := by
    unfold normalize_paper_domains
    rw [h1, h2]
  have hmsg : (path ++ ": missing 'domains' (or legacy 'domain').") ∈
      validate_domains_and_subdomains path doc (load_taxonomy taxNodes) := by
    unfold validate_domains_and_subdomains
    rw [hpd]
    simp
  refine ⟨hmsg, ?_⟩
  have hne : files ≠ [] := List.ne_nil_of_mem hmem
  have h := (validate_main_accumulates sc taxNodes files hne).2.2
  rw [h]
  intro hnil
  have : (path ++ ": missing 'domains' (or legacy 'domain').") ∈
      files.flatMap (perFileErrors sc (load_taxonomy taxNodes)) := by
    refine List.mem_flatMap.mpr ⟨(path, FileRead.ok doc), hmem, ?_⟩
    unfold perFileErrors
    exact List.mem_append_right _ hmsg
  rw [hnil] at this
  exact absurd this (List.not_mem_nil _)

/-- Witness for `missing_domains_error` at a concrete record without
`domains` and `domain` keys. -/
theorem missing_domains_error_witness :
    Yaml.get (Yaml.map [("title", Yaml.str "t")]) "domains" = none ∧
    Yaml.get (Yaml.map [("title", Yaml.str "t")]) "domain" = none ∧
    ("papers/x.yaml: missing 'domains' (or legacy 'domain').") ∈
      validate_domains_and_subdomains "papers/x.yaml"
        (Yaml.map [("title", Yaml.str "t")]) (load_taxonomy []) ∧
    (validateMain true true (fun _ => []) []
      [("papers/x.yaml", FileRead.ok (Yaml.map [("title", Yaml.str "t")]))]).exitCode = 1 := by
  refine ⟨rfl, rfl, ?_⟩
  exact missing_domains_error "papers/x.yaml" (Yaml.map [("title", Yaml.str "t")])
    (fun _ => []) [] [("papers/x.yaml", FileRead.ok (Yaml.map [("title", Yaml.str "t")]))]
    rfl rfl (List.mem_singleton.mpr rfl)

/-- Every key in the dotted-key set of `normalize_paper_subdomains`
contains a dot (the dict branch). -/
theorem npsDict_dotted (kvs : List (String × Yaml))
    (acc : List String × List (String × Yaml))
    (hacc : ∀ k ∈ acc.1, pyHasChar k '.' = true) :
    ∀ k ∈ (npsDict acc kvs).1, pyHasChar k '.' = true := by
  induction kvs generalizing acc with
  | nil => exact hacc
  | cons kv rest ih =>
      refine ih _ ?_
      intro k hk
      dsimp at hk
      split at hk
      · rcases mem_addUnique hk with h | h
        · subst h; assumption
        · exact hacc _ h
      · exact hacc _ hk

/-- Every key in the dotted-key set of `normalize_paper_subdomains`
contains a dot (the list branch). -/
theorem npsList_dotted (xs : List Yaml)
    (acc : List String × List (String × Yaml))
    (hacc : ∀ k ∈ acc.1, pyHasChar k '.' = true) :
    ∀ k ∈ (npsList acc xs).1, pyHasChar k '.' = true := by
  induction xs generalizing acc with
  | nil => exact hacc
  | cons x rest ih =>
      refine ih _ ?_
      intro k hk
      dsimp at hk
      split at hk
      · rcases mem_addUnique hk with h | h
        · subst h; assumption
        · exact hacc _ h
      · exact hacc _ hk

/-- Only dotted keys ever enter the checked key set of
`normalize_paper_subdomains`; group (undotted) keys are ignored. -/
theorem normalize_paper_subdomains_dotted (doc : Yaml) :
    ∀ k ∈ (normalize_paper_subdomains doc).1, pyHasChar k '.' = true := by
  unfold normalize_paper_subdomains
  split
  · exact npsDict_dotted _ _ (by intro k hk; simp at hk)
  · exact npsList_dotted _ _ (by intro k hk; simp at hk)
  · split
    · intro k hk
      dsimp at hk
      split at hk
      · rw [List.mem_singleton.mp hk]
        assumption
      · exact absurd hk (List.not_mem_nil _)
    · intro k hk
      exact absurd hk (List.not_mem_nil _)

/-- A key of the checked set whose domain part is not among the declared
domains yields the prefix-mismatch error. -/
theorem subKeyErrors_mismatch (path : String) (pd : List String) (tax : ValTax)
    (mp : List (String × Yaml)) (key : String)
    (hpre : keyDomainOf key ∉ pd) :
    ∀ keys, key ∈ keys →
      (path ++ ": subdomain '" ++ key ++ "' has domain '" ++ keyDomainOf key ++
        "' not listed in 'domains'.") ∈ subKeyErrors path pd tax mp keys := by
  intro keys hk
  induction keys with
  | nil => exact absurd hk (List.not_mem_nil _)
  | cons k rest ih =>
      rcases List.mem_cons.mp hk with h | h
      · subst h
        rw [subKeyErrors]
        refine List.mem_append_left _ (List.mem_append_left _ (List.mem_append_left _ ?_))
        rw [if_neg hpre]
        exact List.mem_singleton.mpr rfl
      · rw [subKeyErrors]
        exact List.mem_append_right _ (ih h)

/-- The claim C7: a dotted subdomain key whose domain prefix is not among
the paper's declared domains produces the domain-prefix-mismatch error,
and only dotted keys are ever checked (group keys never produce such
errors, because the checked set contains dotted keys only). -/
theorem dotted_prefix_mismatch (path : String) (doc : Yaml)
    (taxNodes : List DomainNode) (key : String)
    (hk : key ∈ (normalize_paper_subdomains doc).1)
    (hpre : keyDomainOf key ∉ normalize_paper_domains doc) :
    (path ++ ": subdomain '" ++ key ++ "' has domain '" ++ keyDomainOf key ++
      "' not listed in 'domains'.") ∈
      validate_domains_and_subdomains path doc (load_taxonomy taxNodes) ∧
    ∀ k ∈ (normalize_paper_subdomains doc).1, pyHasChar k '.' = true := by
  refine ⟨?_, normalize_paper_subdomains_dotted doc⟩
  unfold validate_domains_and_subdomains
  exact List.mem_append_right _
    (subKeyErrors_mismatch path (normalize_paper_domains doc) (load_taxonomy taxNodes)
      (normalize_paper_subdomains doc).2 key hpre (normalize_paper_subdomains doc).1 hk)

/-- Witness for `dotted_prefix_mismatch`: a paper declaring domain `a` but
using subdomain key `b.c`. -/
theorem dotted_prefix_mismatch_witness :
    ("b.c" ∈ (normalize_paper_subdomains
      (Yaml.map [("domains", Yaml.list [Yaml.str "a"]),
                 ("subdomains", Yaml.map [("b.c", Yaml.nul)])])).1) ∧
    (keyDomainOf "b.c" ∉ normalize_paper_domains
      (Yaml.map [("domains", Yaml.list [Yaml.str "a"]),
                 ("subdomains", Yaml.map [("b.c", Yaml.nul)])])) ∧
    ("papers/w.yaml: subdomain '" ++ "b.c" ++ "' has domain '" ++ keyDomainOf "b.c" ++
      "' not listed in 'domains'.") ∈
      validate_domains_and_subdomains "papers/w.yaml"
        (Yaml.map [("domains", Yaml.list [Yaml.str "a"]),
                   ("subdomains", Yaml.map [("b.c", Yaml.nul)])]) (load_taxonomy []) := by
  refine ⟨by decide, by decide, ?_⟩
  exact (dotted_prefix_mismatch "papers/w.yaml"
    (Yaml.map [("domains", Yaml.list [Yaml.str "a"]),
               ("subdomains", Yaml.map [("b.c", Yaml.nul)])]) [] "b.c"
    (by decide) (by decide)).1

/-- The first-occurrence index of a member is a valid position. -/
theorem listIndexOf_lt_length : ∀ {l : List String} {d : String}, d ∈ l →
    listIndexOf l d < l.length := by
  intro l
  induction l with
  | nil => intro d h; exact absurd h (List.not_mem_nil _)
  | cons x rest ih =>
      intro d h
      rw [listIndexOf]
      split
      · simp
      · rename_i hne
        have : d ∈ rest := by
          rcases List.mem_cons.mp h with h | h
          · exact absurd h.symm hne
          · exact h
        simpa using Nat.succ_lt_succ (ih this)

/-- The element at the first-occurrence index is the element itself. -/
theorem get_listIndexOf : ∀ {l : List String} {d : String} (h : d ∈ l),
    l.get ⟨listIndexOf l d, listIndexOf_lt_length h⟩ = d := by
  intro l
  induction l with
  | nil => intro d h; exact absurd h (List.not_mem_nil _)
  | cons x rest ih =>
      intro d h
      rcases Decidable.em (x = d) with he | hne
      · simp [listIndexOf, he]
      · have hm : d ∈ rest := by
          rcases List.mem_cons.mp h with h | h
          · exact absurd h.symm hne
          · exact h
        have := ih hm
        simp only [listIndexOf, if_neg hne]
        simpa using this

/-- A non-member indexes past the end. -/
theorem listIndexOf_of_not_mem : ∀ {l : List String} {d : String}, d ∉ l →
    listIndexOf l d = l.length := by
  intro l
  induction l with
  | nil => intro d _; rfl
  | cons x rest ih =>
      intro d h
      have hne : x ≠ d := fun he => h (he ▸ List.mem_cons_self x rest)
      have hnm : d ∉ rest := fun hm => h (List.mem_cons_of_mem _ hm)
      simp [listIndexOf, hne, ih hnm]

/-- Index in an append when the element misses the first part. -/
theorem listIndexOf_append_of_not_mem {l₁ l₂ : List String} {d : String} (h : d ∉ l₁) :
    listIndexOf (l₁ ++ l₂) d = l₁.length + listIndexOf l₂ d := by
  induction l₁ with
  | nil => simp [listIndexOf]
  | cons x rest ih =>
      have hne : x ≠ d := fun he => h (he ▸ List.mem_cons_self x rest)
      have hnm : d ∉ rest := fun hm => h (List.mem_cons_of_mem _ hm)
      simp [listIndexOf, hne, ih hnm]
      omega

/-- Index in an append when the element is in the first part. -/
theorem listIndexOf_append_of_mem {l₁ l₂ : List String} {d : String} (h : d ∈ l₁) :
    listIndexOf (l₁ ++ l₂) d = listIndexOf l₁ d := by
  induction l₁ with
  | nil => exact absurd h (List.not_mem_nil _)
  | cons x rest ih =>
      rcases Decidable.em (x = d) with he | hne
      · simp [listIndexOf, he]
      · have hm : d ∈ rest := by
          rcases List.mem_cons.mp h with h | h
          · exact absurd h.symm hne
          · exact h
        simp [listIndexOf, hne, ih hm]

/-- Membership after folding set insertions. -/
theorem mem_foldl_addUnique (l : List String) (acc : List String) (x : String) :
    x ∈ l.foldl addUnique acc ↔ x ∈ acc ∨ x ∈ l := by
  induction l generalizing acc with
  | nil => simp
  | cons y rest ih =>
      rw [List.foldl_cons, ih]
      constructor
      · rintro (h | h)
        · rcases mem_addUnique h with h | h
          · exact Or.inr (h ▸ List.mem_cons_self y rest)
          · exact Or.inl h
        · exact Or.inr (List.mem_cons_of_mem _ h)
      · rintro (h | h)
        · exact Or.inl (mem_addUnique_of_mem y h)
        · rcases List.mem_cons.mp h with h | h
          · exact Or.inl (h ▸ self_mem_addUnique acc y)
          · exact Or.inr h

/-- The deduplicated domain list has the same members. -/
theorem mem_uniqueInOrder {l : List String} {x : String} :
    x ∈ uniqueInOrder l ↔ x ∈ l := by
  unfold uniqueInOrder
  rw [mem_foldl_addUnique]
  simp

/-- The category list, reassociated for positional reasoning. -/
theorem domainCategories_eq (rows : List Row) :
    domainCategories rows =
      baseDomainOrder ++ (sortedStrings ((uniqueInOrder (rows.map Row.domain)).filter
        (fun d => if d ∈ baseDomainOrder then false else if d = "(none)" then false else true))
        ++ ["(none)"]) := by
  simp only [domainCategories]
  rw [List.append_assoc]

/-- Every domain of a row of the frame occurs in the category list. -/
theorem domain_mem_categories {rows : List Row} {r : Row} (h : r ∈ rows) :
    r.domain ∈ domainCategories rows := by
  rw [domainCategories_eq]
  rcases Decidable.em (r.domain ∈ baseDomainOrder) with hb | hb
  · exact List.mem_append_left _ hb
  · rcases Decidable.em (r.domain = "(none)") with hn | hn
    · refine List.mem_append_right _ (List.mem_append_right _ ?_)
      simp [hn]
    · refine List.mem_append_right _ (List.mem_append_left _ ?_)
      unfold sortedStrings
      rw [List.mem_insertionSort, List.mem_filter]
      refine ⟨mem_uniqueInOrder.mpr (List.mem_map.mpr ⟨r, h, rfl⟩), ?_⟩
      simp [hb, hn]

/-- The sentinel never occurs among the extra categories. -/
theorem none_not_mem_extras (rows : List Row) :
    "(none)" ∉ sortedStrings ((uniqueInOrder (rows.map Row.domain)).filter
      (fun d => if d ∈ baseDomainOrder then false else if d = "(none)" then false else true)) := by
  intro h
  unfold sortedStrings at h
  rw [List.mem_insertionSort, List.mem_filter] at h
  simp at h

/-- No preferred domain is the sentinel. -/
theorem base_not_none {d : String} (h : d ∈ baseDomainOrder) : d ≠ "(none)" := by
  intro he
  subst he
  revert h
  decide

/-- The category codes order domains exactly as the spec describes. -/
theorem claimLe_of_catIndex_le (rows : List Row) {d₁ d₂ : String}
    (h₁ : d₁ ∈ domainCategories rows) (h₂ : d₂ ∈ domainCategories rows)
    (hle : catIndex (domainCategories rows) d₁ ≤ catIndex (domainCategories rows) d₂) :
    claimDomainLe d₁ d₂ := by
  set extras := sortedStrings ((uniqueInOrder (rows.map Row.domain)).filter
    (fun d => if d ∈ baseDomainOrder then false else if d = "(none)" then false else true)) with hex
  have hcats : domainCategories rows = baseDomainOrder ++ (extras ++ ["(none)"]) := by
    rw [domainCategories_eq, hex]
  have hsorted : List.Sorted strDataLe extras := by
    rw [hex]
    exact List.sorted_insertionSort _ _
  have hnone : "(none)" ∉ extras := by
    rw [hex]
    exact none_not_mem_extras rows
  rcases Decidable.em (d₁ ∈ baseDomainOrder) with hb₁ | hb₁
  · rcases Decidable.em (d₂ ∈ baseDomainOrder) with hb₂ | hb₂
    · rw [hcats, catIndex, catIndex, listIndexOf_append_of_mem hb₁,
        listIndexOf_append_of_mem hb₂] at hle
      unfold claimDomainLe claimDomainRank
      rw [if_neg (base_not_none hb₁), if_pos hb₁, if_neg (base_not_none hb₂), if_pos hb₂]
      rw [Prod.Lex.le_iff]
      refine Or.inr ⟨rfl, ?_⟩
      rw [Prod.Lex.le_iff]
      rcases Nat.lt_or_ge (listIndexOf baseDomainOrder d₁) (listIndexOf baseDomainOrder d₂) with h | h
      · exact Or.inl h
      · exact Or.inr ⟨Nat.le_antisymm hle h, le_refl _⟩
    · unfold claimDomainLe claimDomainRank
      rw [if_neg (base_not_none hb₁), if_pos hb₁]
      rcases Decidable.em (d₂ = "(none)") with hn₂ | hn₂
      · rw [if_pos hn₂, Prod.Lex.le_iff]
        exact Or.inl (by omega)
      · rw [if_neg hn₂, if_neg hb₂, Prod.Lex.le_iff]
        exact Or.inl (by omega)
  · have he₁ : d₁ ∈ extras ++ ["(none)"] := by
      rw [hcats] at h₁
      rcases List.mem_append.mp h₁ with h | h
      · exact absurd h hb₁
      · exact h
    have hc₁ : catIndex (domainCategories rows) d₁ =
        baseDomainOrder.length + listIndexOf (extras ++ ["(none)"]) d₁ := by
      rw [hcats, catIndex, listIndexOf_append_of_not_mem hb₁]
    rcases Decidable.em (d₂ ∈ baseDomainOrder) with hb₂ | hb₂
    · have hc₂ : catIndex (domainCategories rows) d₂ = listIndexOf baseDomainOrder d₂ := by
        rw [hcats, catIndex, listIndexOf_append_of_mem hb₂]
      have hlt := listIndexOf_lt_length hb₂
      rw [hc₁, hc₂] at hle
      have hb5 : baseDomainOrder.length = 5 := rfl
      omega
    · have he₂ : d₂ ∈ extras ++ ["(none)"] := by
        rw [hcats] at h₂
        rcases List.mem_append.mp h₂ with h | h
        · exact absurd h hb₂
        · exact h
      have hc₂ : catIndex (domainCategories rows) d₂ =
          baseDomainOrder.length + listIndexOf (extras ++ ["(none)"]) d₂ := by
        rw [hcats, catIndex, listIndexOf_append_of_not_mem hb₂]
      rw [hc₁, hc₂] at hle
      have hle' : listIndexOf (extras ++ ["(none)"]) d₁ ≤
          listIndexOf (extras ++ ["(none)"]) d₂ := by omega
      rcases Decidable.em (d₁ = "(none)") with hn₁ | hn₁
      · subst hn₁
        have hj₁ : listIndexOf (extras ++ ["(none)"]) "(none)" = extras.length := by
          rw [listIndexOf_append_of_not_mem hnone]
          simp [listIndexOf]
        have hj₂lt : listIndexOf (extras ++ ["(none)"]) d₂ <
            (extras ++ ["(none)"]).length := listIndexOf_lt_length he₂
        have hj₂ : listIndexOf (extras ++ ["(none)"]) d₂ = extras.length := by
          rw [List.length_append] at hj₂lt
          simp at hj₂lt
          rw [hj₁] at hle'
          omega
        have hget := get_listIndexOf he₂
        have hgetnone : (extras ++ ["(none)"]).get
            ⟨listIndexOf (extras ++ ["(none)"]) d₂, listIndexOf_lt_length he₂⟩ = "(none)" := by
          have : (⟨listIndexOf (extras ++ ["(none)"]) d₂, listIndexOf_lt_length he₂⟩ :
              Fin (extras ++ ["(none)"]).length) = ⟨extras.length, by simp⟩ := Fin.ext hj₂
          rw [this, List.get_append_right] <;> simp
        have hdn : d₂ = "(none)" := by rw [← hget, hgetnone]
        rw [hdn]
        exact le_refl _
      · have he₁' : d₁ ∈ extras := by
          rcases List.mem_append.mp he₁ with h | h
          · exact h
          · exact absurd (List.mem_singleton.mp h) hn₁
        rcases Decidable.em (d₂ = "(none)") with hn₂ | hn₂
        · unfold claimDomainLe claimDomainRank
          rw [if_neg hn₁, if_neg hb₁, if_pos hn₂, Prod.Lex.le_iff]
          exact Or.inl (by omega)
        · have he₂' : d₂ ∈ extras := by
            rcases List.mem_append.mp he₂ with h | h
            · exact h
            · exact absurd (List.mem_singleton.mp h) hn₂
          have hj₁ : listIndexOf (extras ++ ["(none)"]) d₁ = listIndexOf extras d₁ :=
            listIndexOf_append_of_mem he₁'
          have hj₂ : listIndexOf (extras ++ ["(none)"]) d₂ = listIndexOf extras d₂ :=
            listIndexOf_append_of_mem he₂'
          rw [hj₁, hj₂] at hle'
          have hdata : d₁.data ≤ d₂.data := by
            rcases Nat.lt_or_ge (listIndexOf extras d₁) (listIndexOf extras d₂) with h | h
            · have hrel : strDataLe d₁ d₂ := by
                have := hsorted.rel_get_of_lt
                  (a := ⟨listIndexOf extras d₁, listIndexOf_lt_length he₁'⟩)
                  (b := ⟨listIndexOf extras d₂, listIndexOf_lt_length he₂'⟩) h
                rwa [get_listIndexOf he₁', get_listIndexOf he₂'] at this
              exact hrel
            · have heq : listIndexOf extras d₁ = listIndexOf extras d₂ :=
                Nat.le_antisymm hle' h
              have hgg : d₁ = d₂ := by
                have g₁ := get_listIndexOf he₁'
                have g₂ := get_listIndexOf he₂'
                rw [← g₁, ← g₂]
                congr 1
                exact Fin.ext heq
              exact le_of_eq (congrArg String.data hgg)
          unfold claimDomainLe claimDomainRank
          rw [if_neg hn₁, if_neg hb₁, if_neg hn₂, if_neg hb₂, Prod.Lex.le_iff]
          refine Or.inr ⟨rfl, ?_⟩
          rw [Prod.Lex.le_iff]
          exact Or.inr ⟨rfl, hdata⟩

/-- The claim C3: the CSV pipeline on exactly the two described papers
produces exactly the two rows `(chemical, chemical.metals, Pb, paperA)`
and `(physical, (none), Noise, paperB)`. -/
theorem export_two_papers_rows :
    exportPipeline
      [("paperA", Yaml.map [("domains", Yaml.list [Yaml.str "chemical"]),
        ("subdomains", Yaml.map [("chemical.metals", Yaml.list [Yaml.str "Pb"])])]),
       ("paperB", Yaml.map [("domain", Yaml.str "physical"),
        ("indicators", Yaml.list [Yaml.str "Noise"])])] false =
    [Row.mk "chemical" "chemical.metals" "Pb" "paperA",
     Row.mk "physical" "(none)" "Noise" "paperB"] := by decide

/-- The claim C9: in the exported CSV row order, the five preferred domains
come first in their fixed order, all other domains follow alphabetically,
and the sentinel domain `(none)` is strictly last: consecutive rows of the
sorted frame are always non-decreasing in that domain order. -/
theorem export_domain_order (rows : List Row) :
    (sort_frame rows).Pairwise (fun a b => claimDomainLe a.domain b.domain) := by
  have hs : List.Pairwise (rowLe (domainCategories rows)) (sort_frame rows) := by
    unfold sort_frame
    exact List.sorted_insertionSort _ rows
  refine hs.imp_of_mem ?_
  intro a b ha hb hrel
  have ha' : a ∈ rows := by
    unfold sort_frame at ha
    exact (List.mem_insertionSort _).mp ha
  have hb' : b ∈ rows := by
    unfold sort_frame at hb
    exact (List.mem_insertionSort _).mp hb
  have hcat : catIndex (domainCategories rows) a.domain ≤
      catIndex (domainCategories rows) b.domain := by
    unfold rowLe rowKey at hrel
    rcases (Prod.Lex.le_iff _ _).mp hrel with h | ⟨heq, _⟩
    · exact le_of_lt h
    · exact le_of_eq heq
  exact claimLe_of_catIndex_le rows (domain_mem_categories ha') (domain_mem_categories hb') hcat


/-- Preservation is reflexive. -/
theorem keepsPrefix_refl (l : List DomainNode) : keepsPrefix l l :=
  ⟨le_refl _, fun _ _ => ⟨rfl, fun _ hs => hs⟩⟩

/-- Preservation composes. -/
theorem keepsPrefix_trans {a b c : List DomainNode}
    (h₁ : keepsPrefix a b) (h₂ : keepsPrefix b c) : keepsPrefix a c := by
  obtain ⟨l₁, p₁⟩ := h₁
  obtain ⟨l₂, p₂⟩ := h₂
  refine ⟨le_trans l₁ l₂, fun j h => ?_⟩
  obtain ⟨n₁, s₁⟩ := p₁ j h
  obtain ⟨n₂, s₂⟩ := p₂ j (lt_of_lt_of_le h l₁)
  exact ⟨n₂.trans n₁, fun s hs => s₂ s (s₁ s hs)⟩

/-- Appending nodes preserves the existing prefix. -/
theorem keepsPrefix_append (l more : List DomainNode) : keepsPrefix l (l ++ more) := by
  refine ⟨by simp, fun j h => ?_⟩
  rw [List.get_append _ h]
  exact ⟨rfl, fun _ hs => hs⟩

/-- Extending one node's subdomain list preserves the prefix. -/
theorem keepsPrefix_set_enrich (l : List DomainNode) (i : Nat) (node : DomainNode)
    (token : String) (hi : l[i]? = some node) :
    keepsPrefix l (l.set i ⟨node.name, node.subdomains ++ [token]⟩) := by
  refine ⟨by simp, fun j h => ?_⟩
  have hil : i < l.length := by
    by_contra hc
    rw [List.getElem?_eq_none (Nat.le_of_not_lt hc)] at hi
    exact Option.noConfusion hi
  have hnode : l[i] = node := by
    have := List.getElem?_eq_getElem hil
    rw [this] at hi
    exact Option.some.inj hi
  have hset : (l.set i ⟨node.name, node.subdomains ++ [token]⟩).get
      ⟨j, by simpa using h⟩ =
      if i = j then ⟨node.name, node.subdomains ++ [token]⟩ else l.get ⟨j, h⟩ := by
    rw [List.get_eq_getElem, List.getElem_set]
    simp [List.get_eq_getElem]
  rcases Decidable.em (i = j) with he | hne
  · subst he
    rw [hset, if_pos rfl]
    constructor
    · simp [hnode, List.get_eq_getElem]
    · intro s hs
      rw [List.get_eq_getElem] at hs
      rw [hnode] at hs
      exact List.mem_append_left _ hs
  · rw [hset, if_neg hne]
    exact ⟨rfl, fun _ hs => hs⟩

/-- The first sync phase only appends nodes. -/
theorem addDomainsPhase_keeps (ds : List String) (st : SyncState) :
    keepsPrefix st.nodes (addDomainsPhase st ds).nodes := by
  induction ds generalizing st with
  | nil => exact keepsPrefix_refl _
  | cons d rest ih =>
      rw [addDomainsPhase]
      rcases hidx : idxOf st.idx d with _ | i
      · simp only [hidx]
        exact keepsPrefix_trans (keepsPrefix_append st.nodes [⟨d, []⟩])
          (ih ⟨st.nodes ++ [⟨d, []⟩], (d, st.nodes.length) :: st.idx,
            st.addedDomains ++ [d], st.addedSubs⟩)
      · simp only [hidx]
        exact ih st

/-- One dotted-key step only appends nodes or grows a subdomain list. -/
theorem addSubStep_keeps (fk : Bool) (st : SyncState) (k : String) :
    keepsPrefix st.nodes (addSubStep fk st k).nodes := by
  unfold addSubStep
  rcases hidx : idxOf st.idx (keyDomainOf k) with _ | i
  · simp only [hidx]
    have hfind : idxOf ((keyDomainOf k, st.nodes.length) :: st.idx) (keyDomainOf k) =
        some st.nodes.length := by
      rw [idxOf, if_pos rfl]
    have hget : (st.nodes ++ [(⟨keyDomainOf k, []⟩ : DomainNode)])[st.nodes.length]? =
        some ⟨keyDomainOf k, []⟩ := by
      rw [List.getElem?_append_right (le_refl _)]
      simp
    simp only [hfind, hget]
    rw [if_neg (List.not_mem_nil _)]
    exact keepsPrefix_trans (keepsPrefix_append _ _)
      (keepsPrefix_set_enrich _ _ _ _ hget)
  · simp only [hidx]
    rcases hnode : st.nodes[i]? with _ | node
    · dsimp only
      exact keepsPrefix_refl _
    · dsimp only
      have hstep : ∀ token : String, keepsPrefix st.nodes
          (if token ∈ node.subdomains then st
           else { nodes := st.nodes.set i ⟨node.name, node.subdomains ++ [token]⟩,
                  idx := st.idx, addedDomains := st.addedDomains,
                  addedSubs := st.addedSubs ++
                    [keyDomainOf k ++ "." ++ keyTailOf k] } : SyncState).nodes := by
        intro token
        split
        · exact keepsPrefix_refl _
        · exact keepsPrefix_set_enrich _ i node _ hnode
      exact hstep _

/-- The second sync phase only appends nodes or grows subdomain lists. -/
theorem addSubsPhase_keeps (fk : Bool) (ks : List String) (st : SyncState) :
    keepsPrefix st.nodes (addSubsPhase fk st ks).nodes := by
  induction ks generalizing st with
  | nil => exact keepsPrefix_refl _
  | cons k rest ih =>
      rw [addSubsPhase]
      exact keepsPrefix_trans (addSubStep_keeps fk st k) (ih _)

/-- With pairwise-distinct names, equal names mean equal positions. -/
theorem name_get_inj {l : List DomainNode} (hnd : (l.map DomainNode.name).Nodup)
    {i j : Nat} (hi : i < l.length) (hj : j < l.length)
    (h : (l.get ⟨i, hi⟩).name = (l.get ⟨j, hj⟩).name) : i = j := by
  have hinj := List.nodup_iff_injective_get.mp hnd
  have hmap : ∀ (m : Nat) (hm : m < l.length),
      (l.map DomainNode.name).get ⟨m, by simpa using hm⟩ = (l.get ⟨m, hm⟩).name := by
    intro m hm
    rw [List.get_map]
  have hfin := @hinj ⟨i, by simpa using hi⟩ ⟨j, by simpa using hj⟩
    (by rw [hmap i hi, hmap j hj]; exact h)
  exact Fin.mk.inj_iff.mp hfin

/-- The dedup loop keeps (tidied) the first node of each name. -/
theorem dedupNodesAux_keeps_first :
    ∀ (cur : List DomainNode) (seen : List String) (j : Nat) (h : j < cur.length),
      (cur.get ⟨j, h⟩).name ∉ seen →
      (∀ j' (h' : j' < j), (cur.get ⟨j', lt_trans h' h⟩).name ≠ (cur.get ⟨j, h⟩).name) →
      tidyNode (cur.get ⟨j, h⟩) ∈ dedupNodesAux seen cur := by
  intro cur
  induction cur with
  | nil => intro seen j h; exact absurd h (by simp)
  | cons d rest ih =>
      intro seen j h hseen hfirst
      match j with
      | 0 =>
          rw [dedupNodesAux]
          rw [if_neg (by simpa using hseen)]
          exact List.mem_cons_self _ _
      | j' + 1 =>
          rw [dedupNodesAux]
          have hrest : j' < rest.length := by simpa using h
          have hgr : ((d :: rest).get ⟨j' + 1, h⟩) = rest.get ⟨j', hrest⟩ := rfl
          rcases Decidable.em (d.name ∈ seen) with hd | hd
          · rw [if_pos hd]
            rw [hgr]
            refine ih seen j' hrest (by rw [hgr] at hseen; exact hseen) ?_
            intro j'' h''
            have := hfirst (j'' + 1) (by omega)
            rw [hgr] at this
            exact this
          · rw [if_neg hd]
            rw [hgr]
            refine List.mem_cons_of_mem _ ?_
            refine ih (seen ++ [d.name]) j' hrest ?_ ?_
            · intro hmem
              rcases List.mem_append.mp hmem with hm | hm
              · rw [hgr] at hseen
                exact hseen hm
              · have h0 := hfirst 0 (by omega)
                rw [hgr] at h0
                have hd0 : ((d :: rest).get ⟨0, lt_trans (by omega) h⟩) = d := rfl
                rw [hd0] at h0
                exact h0 (List.mem_singleton.mp hm).symm
            · intro j'' h''
              have := hfirst (j'' + 1) (by omega)
              rw [hgr] at this
              exact this

/-- Tidying a node never loses a subdomain entry. -/
theorem mem_subdomains_tidyNode {d : DomainNode} {s : String}
    (h : s ∈ d.subdomains) : s ∈ (tidyNode d).subdomains := by
  unfold tidyNode
  simp only
  rw [List.mem_insertionSort]
  exact mem_uniqueInOrder.mpr h

/-- The claim C5 (amended): when the input taxonomy has no two domain
nodes of the same name, the synchronizer never removes anything: every
node keeps a node of its name in the output whose subdomain list contains
every entry of the original. -/
theorem sync_never_removes (taxNodes : List DomainNode)
    (papers : List (String × FileRead)) (fk : Bool)
    (hnd : (taxNodes.map DomainNode.name).Nodup) :
    ∀ n ∈ taxNodes, ∃ n' ∈ (sync_taxonomy taxNodes papers fk).1,
      n'.name = n.name ∧ ∀ s ∈ n.subdomains, s ∈ n'.subdomains := by
  intro n hn
  obtain ⟨j, hget⟩ := List.mem_iff_get.mp hn
  set st0 : SyncState := ⟨taxNodes, buildIdx taxNodes, [], []⟩ with hst0
  set st1 := addDomainsPhase st0 (sortedStrings (collect_from_papers papers).2) with hst1
  set st2 := addSubsPhase fk st1 (sortedStrings (collect_from_papers papers).1) with hst2
  have hkeep : keepsPrefix taxNodes st2.nodes :=
    keepsPrefix_trans (addDomainsPhase_keeps _ st0) (addSubsPhase_keeps _ _ st1)
  obtain ⟨hlen, hpres⟩ := hkeep
  have hjc : (j : Nat) < st2.nodes.length := lt_of_lt_of_le j.isLt hlen
  obtain ⟨hname, hsubs⟩ := hpres j j.isLt
  have hfirst : ∀ j' (h' : j' < (j : Nat)),
      (st2.nodes.get ⟨j', lt_trans h' hjc⟩).name ≠ (st2.nodes.get ⟨(j : Nat), hjc⟩).name := by
    intro j' h'
    obtain ⟨hname', _⟩ := hpres j' (lt_trans h' j.isLt)
    rw [hname', hname]
    intro he
    have := name_get_inj hnd (lt_trans h' j.isLt) j.isLt he
    omega
  have hmem : tidyNode (st2.nodes.get ⟨(j : Nat), hjc⟩) ∈ dedupNodesAux [] st2.nodes :=
    dedupNodesAux_keeps_first st2.nodes [] (j : Nat) hjc (by simp) hfirst
  refine ⟨tidyNode (st2.nodes.get ⟨(j : Nat), hjc⟩), ?_, ?_, ?_⟩
  · show _ ∈ (sync_taxonomy taxNodes papers fk).1
    unfold sync_taxonomy
    rw [List.mem_insertionSort]
    exact hmem
  · show (tidyNode _).name = n.name
    unfold tidyNode
    simp only
    rw [hname]
    have : taxNodes.get ⟨(j : Nat), j.isLt⟩ = n := by
      rw [← hget]
    rw [this]
  · intro s hs
    refine mem_subdomains_tidyNode ?_
    have : taxNodes.get ⟨(j : Nat), j.isLt⟩ = n := by
      rw [← hget]
    rw [this] at hsubs
    exact hsubs s hs

/-- Counterexample to the claim C5 as stated: with two taxonomy nodes both
named `a`, holding `x` and `y` respectively, and no papers at all, the
synchronizer writes out only the first node, so the subdomain entry `y`
present in the input taxonomy is no longer present anywhere in the output. -/
theorem sync_removes_entry_counterexample :
    sync_taxonomy [⟨"a", ["x"]⟩, ⟨"a", ["y"]⟩] [] false = ([⟨"a", ["x"]⟩], [], []) ∧
    "y" ∈ (["y"] : List String) ∧ "y" ∉ (["x"] : List String) := by decide

/-- Witness for `sync_never_removes` at a concrete taxonomy. -/
theorem sync_never_removes_witness :
    (([⟨"a", ["x"]⟩] : List DomainNode).map DomainNode.name).Nodup ∧
    (⟨"a", ["x"]⟩ : DomainNode) ∈ ([⟨"a", ["x"]⟩] : List DomainNode) ∧
    ∃ n' ∈ (sync_taxonomy [⟨"a", ["x"]⟩] [] false).1,
      n'.name = "a" ∧ ∀ s ∈ (⟨"a", ["x"]⟩ : DomainNode).subdomains, s ∈ n'.subdomains := by
  refine ⟨by decide, by decide, ?_⟩
  exact sync_never_removes [⟨"a", ["x"]⟩] [] false (by decide) ⟨"a", ["x"]⟩
    (List.mem_singleton.mpr rfl)

/-- Empty-string test via the character list. -/
theorem strEmpty_iff {s : String} : s.data.isEmpty = true ↔ s = "" := by
  constructor
  · intro h
    apply String.ext
    simpa [List.isEmpty_iff] using h
  · intro h
    subst h
    rfl


/-- A successful `getElem?` gives the element at that position. -/
theorem get_of_getElem? {α : Type _} {l : List α} {i : Nat} {a : α}
    (h : l[i]? = some a) : ∃ hlt : i < l.length, l.get ⟨i, hlt⟩ = a := by
  have hlt : i < l.length := by
    by_contra hc
    rw [List.getElem?_eq_none (Nat.le_of_not_lt hc)] at h
    exact Option.noConfusion h
  refine ⟨hlt, ?_⟩
  rw [List.get_eq_getElem]
  have hg := List.getElem?_eq_getElem hlt
  rw [hg] at h
  exact Option.some.inj h

/-- Index lookup distributes over appended dictionaries. -/
theorem idxOf_append (l₁ l₂ : List (String × Nat)) (d : String) :
    idxOf (l₁ ++ l₂) d =
      match idxOf l₁ d with
      | some i => some i
      | none => idxOf l₂ d := by
  induction l₁ with
  | nil => simp [idxOf]
  | cons e rest ih =>
      rw [List.cons_append, idxOf, idxOf]
      split
      · rfl
      · exact ih

/-- A successful lookup in the built index points at a node of that name. -/
theorem idxOf_buildIdxFrom_some :
    ∀ (nodes : List DomainNode) (pos : Nat) (d : String) (i : Nat),
      idxOf (buildIdxFrom pos nodes) d = some i →
      ∃ j, ∃ h : j < nodes.length, pos + j = i ∧ (nodes.get ⟨j, h⟩).name = d := by
  intro nodes
  induction nodes with
  | nil =>
      intro pos d i h
      rw [buildIdxFrom] at h
      exact absurd h (by simp [idxOf])
  | cons nd rest ih =>
      intro pos d i h
      rw [buildIdxFrom, idxOf_append] at h
      rcases hr : idxOf (buildIdxFrom (pos + 1) rest) d with _ | i'
      · rw [hr] at h
        dsimp at h
        split at h
        · exact absurd h (by simp [idxOf])
        · rw [idxOf] at h
          split at h
          · rename_i hname
            have hpi : pos = i := Option.some.inj h
            refine ⟨0, by simp, by omega, ?_⟩
            simpa using hname
          · exact absurd h (by simp [idxOf])
      · rw [hr] at h
        dsimp at h
        have hii : i' = i := Option.some.inj h
        obtain ⟨j, hj, hpj, hname⟩ := ih (pos + 1) d i' hr
        refine ⟨j + 1, by simpa using Nat.succ_lt_succ hj, by omega, ?_⟩
        simpa using hname

/-- Every node with a truthy name is found by the built index. -/
theorem idxOf_buildIdxFrom_isSome :
    ∀ (nodes : List DomainNode) (pos : Nat) (n : DomainNode), n ∈ nodes → n.name ≠ "" →
      (idxOf (buildIdxFrom pos nodes) n.name).isSome := by
  intro nodes
  induction nodes with
  | nil => intro pos n h _; exact absurd h (List.not_mem_nil _)
  | cons nd rest ih =>
      intro pos n hmem hne
      rw [buildIdxFrom, idxOf_append]
      rcases hr : idxOf (buildIdxFrom (pos + 1) rest) n.name with _ | i
      · dsimp
        rcases List.mem_cons.mp hmem with he | hm
        · subst he
          rw [if_neg (fun hemp => hne (strEmpty_iff.mp hemp))]
          rw [idxOf, if_pos rfl]
          rfl
        · have := ih (pos + 1) n hm hne
          rw [hr] at this
          simp at this
      · dsimp




/-- The invariant holds initially for a clean taxonomy. -/
theorem syncInv_init (taxNodes : List DomainNode)
    (hnd : (taxNodes.map DomainNode.name).Nodup)
    (hne : ∀ n ∈ taxNodes, n.name ≠ "") :
    SyncInv taxNodes (buildIdx taxNodes) := by
  refine ⟨?_, hne, hnd, ?_⟩
  · intro d i h
    obtain ⟨j, hj, hpj, hname⟩ := idxOf_buildIdxFrom_some taxNodes 0 d i h
    have hji : j = i := by omega
    subst hji
    exact ⟨hj, hname⟩
  · intro n hn
    exact idxOf_buildIdxFrom_isSome taxNodes 0 n hn (hne n hn)

/-- Creating a fresh node preserves the invariant. -/
theorem syncInv_create {nodes : List DomainNode} {idx : List (String × Nat)}
    {d : String} (hd : d ≠ "") (hnone : idxOf idx d = none)
    (hinv : SyncInv nodes idx) :
    SyncInv (nodes ++ [⟨d, []⟩]) ((d, nodes.length) :: idx) := by
  have hdnotin : d ∉ nodes.map DomainNode.name := by
    intro hmem
    obtain ⟨n, hn, hname⟩ := List.mem_map.mp hmem
    have := hinv.compl n hn
    rw [hname, hnone] at this
    simp at this
  refine ⟨?_, ?_, ?_, ?_⟩
  · intro d' i h
    rw [idxOf] at h
    split at h
    · rename_i heq
      have hii : nodes.length = i := Option.some.inj h
      subst hii
      have hg : (nodes ++ [(⟨d, []⟩ : DomainNode)])[nodes.length]? = some ⟨d, []⟩ := by
        rw [List.getElem?_append_right (le_refl _)]
        simp
      obtain ⟨hlt2, hget⟩ := get_of_getElem? hg
      refine ⟨hlt2, ?_⟩
      rw [hget]
      simpa using heq
    · obtain ⟨hlt, hname⟩ := hinv.idxOk d' i h
      have hg : (nodes ++ [(⟨d, []⟩ : DomainNode)])[i]? = some (nodes.get ⟨i, hlt⟩) := by
        rw [List.getElem?_append, if_pos hlt, List.getElem?_eq_getElem hlt, List.get_eq_getElem]
      obtain ⟨hlt2, hget⟩ := get_of_getElem? hg
      refine ⟨hlt2, ?_⟩
      rw [hget]
      exact hname
  · intro n hn
    rcases List.mem_append.mp hn with hm | hm
    · exact hinv.namesNe n hm
    · rw [List.mem_singleton.mp hm]
      exact hd
  · rw [List.map_append]
    simp only [List.map_cons, List.map_nil]
    rw [List.nodup_append]
    refine ⟨hinv.nodup, List.nodup_singleton _, ?_⟩
    intro x hx hx'
    rw [List.mem_singleton.mp hx'] at hx
    exact hdnotin hx
  · intro n hn
    rw [idxOf]
    split
    · rfl
    · rename_i hne2
      rcases List.mem_append.mp hn with hm | hm
      · exact hinv.compl n hm
      · rw [List.mem_singleton.mp hm] at hne2
        exact absurd rfl hne2

/-- Replacing a node by itself with a longer subdomain list preserves the
invariant. -/
theorem syncInv_set {nodes : List DomainNode} {idx : List (String × Nat)}
    {i : Nat} {node : DomainNode} {token : String}
    (hi : nodes[i]? = some node) (hinv : SyncInv nodes idx) :
    SyncInv (nodes.set i ⟨node.name, node.subdomains ++ [token]⟩) idx := by
  obtain ⟨hil, higet⟩ := get_of_getElem? hi
  have hnames : (nodes.set i ⟨node.name, node.subdomains ++ [token]⟩).map DomainNode.name =
      nodes.map DomainNode.name := by
    rw [List.map_set]
    apply List.ext_getElem?
    intro m
    rw [List.getElem?_set]
    split
    · rename_i hmi
      subst hmi
      rw [if_pos (by simpa using hil)]
      rw [List.getElem?_map, hi]
      rfl
    · rfl
  have hmemnode : node ∈ nodes := List.getElem?_mem hi
  refine ⟨?_, ?_, ?_, ?_⟩
  · intro d' j h
    obtain ⟨hlt, hname⟩ := hinv.idxOk d' j h
    rcases Decidable.em (i = j) with hij | hij
    · subst hij
      have hg : (nodes.set i ⟨node.name, node.subdomains ++ [token]⟩)[i]? =
          some ⟨node.name, node.subdomains ++ [token]⟩ := by
        rw [List.getElem?_set, if_pos rfl, if_pos hil]
      obtain ⟨hlt2, hget⟩ := get_of_getElem? hg
      refine ⟨hlt2, ?_⟩
      rw [hget]
      show node.name = d'
      rw [← hname, higet]
    · have hg : (nodes.set i ⟨node.name, node.subdomains ++ [token]⟩)[j]? =
          some (nodes.get ⟨j, hlt⟩) := by
        rw [List.getElem?_set, if_neg hij, List.getElem?_eq_getElem hlt, List.get_eq_getElem]
      obtain ⟨hlt2, hget⟩ := get_of_getElem? hg
      refine ⟨hlt2, ?_⟩
      rw [hget]
      exact hname
  · intro n hn
    rcases List.mem_or_eq_of_mem_set hn with hm | he
    · exact hinv.namesNe n hm
    · rw [he]
      exact hinv.namesNe node hmemnode
  · rw [hnames]
    exact hinv.nodup
  · intro n hn
    rcases List.mem_or_eq_of_mem_set hn with hm | he
    · exact hinv.compl n hm
    · rw [he]
      exact hinv.compl node hmemnode

/-- Preservation transports the existence of a named node. -/
theorem hasName_mono {a b : List DomainNode} (hk : keepsPrefix a b) {d : String}
    (h : hasName a d) : hasName b d := by
  obtain ⟨n, hn, hname⟩ := h
  obtain ⟨j, hget⟩ := List.mem_iff_get.mp hn
  obtain ⟨hlen, hp⟩ := hk
  obtain ⟨hnameeq, _⟩ := hp j j.isLt
  refine ⟨b.get ⟨j, lt_of_lt_of_le j.isLt hlen⟩, List.get_mem _ _ _, ?_⟩
  rw [hnameeq, hget, hname]

/-- Preservation transports the presence of a token. -/
theorem hasToken_mono {a b : List DomainNode} (hk : keepsPrefix a b) {d t : String}
    (h : hasToken a d t) : hasToken b d t := by
  obtain ⟨n, hn, hname, htok⟩ := h
  obtain ⟨j, hget⟩ := List.mem_iff_get.mp hn
  obtain ⟨hlen, hp⟩ := hk
  obtain ⟨hnameeq, hsub⟩ := hp j j.isLt
  refine ⟨b.get ⟨j, lt_of_lt_of_le j.isLt hlen⟩, List.get_mem _ _ _, ?_, ?_⟩
  · rw [hnameeq, hget, hname]
  · refine hsub t ?_
    rw [hget]
    exact htok

/-- After the first phase the invariant still holds and every processed
domain has a node. -/
theorem addDomainsPhase_post :
    ∀ (ds : List String) (st : SyncState), SyncInv st.nodes st.idx →
      (∀ d ∈ ds, d ≠ "") →
      SyncInv (addDomainsPhase st ds).nodes (addDomainsPhase st ds).idx ∧
      ∀ d ∈ ds, hasName (addDomainsPhase st ds).nodes d := by
  intro ds
  induction ds with
  | nil =>
      intro st hinv _
      exact ⟨hinv, by simp⟩
  | cons d rest ih =>
      intro st hinv hds
      rw [addDomainsPhase]
      rcases hidx : idxOf st.idx d with _ | i
      · simp only [hidx]
        have hinv' : SyncInv (st.nodes ++ [⟨d, []⟩]) ((d, st.nodes.length) :: st.idx) :=
          syncInv_create (hds d (List.mem_cons_self _ _)) hidx hinv
        obtain ⟨hi2, hall⟩ := ih ⟨st.nodes ++ [⟨d, []⟩], (d, st.nodes.length) :: st.idx,
          st.addedDomains ++ [d], st.addedSubs⟩ hinv'
          (fun x hx => hds x (List.mem_cons_of_mem _ hx))
        refine ⟨hi2, ?_⟩
        intro x hx
        rcases List.mem_cons.mp hx with he | hm
        · subst he
          refine hasName_mono (addDomainsPhase_keeps rest _) ?_
          exact ⟨⟨x, []⟩, List.mem_append_right _ (List.mem_singleton.mpr rfl), rfl⟩
        · exact hall x hm
      · simp only [hidx]
        obtain ⟨hi2, hall⟩ := ih st hinv (fun x hx => hds x (List.mem_cons_of_mem _ hx))
        refine ⟨hi2, ?_⟩
        intro x hx
        rcases List.mem_cons.mp hx with he | hm
        · subst he
          refine hasName_mono (addDomainsPhase_keeps rest st) ?_
          obtain ⟨hlt, hname⟩ := hinv.idxOk x i hidx
          exact ⟨st.nodes.get ⟨i, hlt⟩, List.get_mem _ _ _, hname⟩
        · exact hall x hm

/-- One dotted-key step keeps the invariant and plants its token. -/
theorem addSubStep_post (fk : Bool) (st : SyncState) (k : String)
    (hinv : SyncInv st.nodes st.idx) (hkne : keyDomainOf k ≠ "") :
    SyncInv (addSubStep fk st k).nodes (addSubStep fk st k).idx ∧
    hasToken (addSubStep fk st k).nodes (keyDomainOf k)
      (if fk then k else keyTailOf k) := by
  unfold addSubStep
  rcases hidx : idxOf st.idx (keyDomainOf k) with _ | i
  · simp only [hidx]
    have hfind : idxOf ((keyDomainOf k, st.nodes.length) :: st.idx) (keyDomainOf k) =
        some st.nodes.length := by
      rw [idxOf, if_pos rfl]
    have hget : (st.nodes ++ [(⟨keyDomainOf k, []⟩ : DomainNode)])[st.nodes.length]? =
        some ⟨keyDomainOf k, []⟩ := by
      rw [List.getElem?_append_right (le_refl _)]
      simp
    simp only [hfind, hget]
    rw [if_neg (List.not_mem_nil _)]
    have hinv' : SyncInv (st.nodes ++ [⟨keyDomainOf k, []⟩])
        ((keyDomainOf k, st.nodes.length) :: st.idx) := syncInv_create hkne hidx hinv
    constructor
    · exact syncInv_set hget hinv'
    · have hlen : st.nodes.length <
          (st.nodes ++ [(⟨keyDomainOf k, []⟩ : DomainNode)]).length := by
        simp
      have hg2 : ((st.nodes ++ [(⟨keyDomainOf k, []⟩ : DomainNode)]).set st.nodes.length
            (⟨keyDomainOf k, [] ++ [if fk then k else keyTailOf k]⟩ :
              DomainNode))[st.nodes.length]? =
          some ⟨keyDomainOf k, [] ++ [if fk then k else keyTailOf k]⟩ := by
        rw [List.getElem?_set, if_pos rfl, if_pos hlen]
      refine ⟨_, List.getElem?_mem hg2, rfl, ?_⟩
      simp
  · simp only [hidx]
    rcases hnode : st.nodes[i]? with _ | node
    · obtain ⟨hlt, _⟩ := hinv.idxOk _ _ hidx
      rw [List.getElem?_eq_getElem hlt] at hnode
      exact absurd hnode (by simp)
    · dsimp only
      obtain ⟨hlt, hname⟩ := hinv.idxOk _ _ hidx
      obtain ⟨hlt2, hget2⟩ := get_of_getElem? hnode
      have hnn : node.name = keyDomainOf k := by
        rw [← hget2]
        exact hname
      rcases Decidable.em ((if fk then k else keyTailOf k) ∈ node.subdomains) with hmem | hmem
      · rw [if_pos hmem]
        exact ⟨hinv, node, List.getElem?_mem hnode, hnn, hmem⟩
      · rw [if_neg hmem]
        constructor
        · exact syncInv_set hnode hinv
        · have hg2 : (st.nodes.set i
              (⟨node.name, node.subdomains ++ [if fk then k else keyTailOf k]⟩ :
                DomainNode))[i]? =
              some ⟨node.name, node.subdomains ++ [if fk then k else keyTailOf k]⟩ := by
            rw [List.getElem?_set, if_pos rfl, if_pos hlt]
          refine ⟨_, List.getElem?_mem hg2, hnn, ?_⟩
          exact List.mem_append_right _ (List.mem_singleton.mpr rfl)

/-- After the second phase the invariant still holds and every processed
key's token is present under its domain. -/
theorem addSubsPhase_post (fk : Bool) :
    ∀ (ks : List String) (st : SyncState), SyncInv st.nodes st.idx →
      (∀ k ∈ ks, keyDomainOf k ≠ "") →
      SyncInv (addSubsPhase fk st ks).nodes (addSubsPhase fk st ks).idx ∧
      ∀ k ∈ ks, hasToken (addSubsPhase fk st ks).nodes (keyDomainOf k)
        (if fk then k else keyTailOf k) := by
  intro ks
  induction ks with
  | nil =>
      intro st hinv _
      exact ⟨hinv, by simp⟩
  | cons k rest ih =>
      intro st hinv hks
      rw [addSubsPhase]
      obtain ⟨hinv', htok⟩ := addSubStep_post fk st k hinv (hks k (List.mem_cons_self _ _))
      obtain ⟨hi2, hall⟩ := ih (addSubStep fk st k) hinv'
        (fun x hx => hks x (List.mem_cons_of_mem _ hx))
      refine ⟨hi2, ?_⟩
      intro x hx
      rcases List.mem_cons.mp hx with he | hm
      · subst he
        exact hasToken_mono (addSubsPhase_keeps fk rest _) htok
      · exact hall x hm

/-- The first phase does nothing when every domain is already indexed. -/
theorem addDomainsPhase_noop :
    ∀ (ds : List String) (st : SyncState), (∀ d ∈ ds, (idxOf st.idx d).isSome) →
      addDomainsPhase st ds = st := by
  intro ds
  induction ds with
  | nil => intro st _; rfl
  | cons d rest ih =>
      intro st h
      rw [addDomainsPhase]
      rcases hidx : idxOf st.idx d with _ | i
      · have := h d (List.mem_cons_self _ _)
        rw [hidx] at this
        simp at this
      · simp only [hidx]
        exact ih st (fun x hx => h x (List.mem_cons_of_mem _ hx))

/-- A dotted-key step does nothing when the token is already stored. -/
theorem addSubStep_noop (fk : Bool) (st : SyncState) (k : String)
    (i : Nat) (node : DomainNode)
    (hidx : idxOf st.idx (keyDomainOf k) = some i)
    (hnode : st.nodes[i]? = some node)
    (htok : (if fk then k else keyTailOf k) ∈ node.subdomains) :
    addSubStep fk st k = st := by
  unfold addSubStep
  simp only [hidx, hnode]
  rw [if_pos htok]

/-- The second phase does nothing when every step does nothing. -/
theorem addSubsPhase_noop (fk : Bool) :
    ∀ (ks : List String) (st : SyncState), (∀ k ∈ ks, addSubStep fk st k = st) →
      addSubsPhase fk st ks = st := by
  intro ks
  induction ks with
  | nil => intro st _; rfl
  | cons k rest ih =>
      intro st h
      rw [addSubsPhase]
      rw [h k (List.mem_cons_self _ _)]
      exact ih st (fun x hx => h x (List.mem_cons_of_mem _ hx))

/-- Set insertion keeps lists duplicate-free. -/
theorem nodup_foldl_addUnique :
    ∀ (l acc : List String), acc.Nodup → (l.foldl addUnique acc).Nodup := by
  intro l
  induction l with
  | nil => intro acc h; exact h
  | cons x rest ih =>
      intro acc h
      rw [List.foldl_cons]
      refine ih _ ?_
      unfold addUnique
      split
      · exact h
      · rename_i hx
        rw [List.nodup_append]
        exact ⟨h, List.nodup_singleton _,
          fun y hy hy' => hx ((List.mem_singleton.mp hy') ▸ hy)⟩

/-- The deduplicated list is duplicate-free. -/
theorem nodup_uniqueInOrder (l : List String) : (uniqueInOrder l).Nodup :=
  nodup_foldl_addUnique l [] List.nodup_nil

/-- Folding set insertions over a duplicate-free tail just appends it. -/
theorem foldl_addUnique_of_nodup :
    ∀ (l acc : List String), (acc ++ l).Nodup → l.foldl addUnique acc = acc ++ l := by
  intro l
  induction l with
  | nil => intro acc _; simp
  | cons x rest ih =>
      intro acc h
      rw [List.foldl_cons]
      have hx : x ∉ acc := by
        intro hm
        rw [List.nodup_append] at h
        exact h.2.2 hm (List.mem_cons_self _ _)
      have ha : addUnique acc x = acc ++ [x] := by
        unfold addUnique
        rw [if_neg hx]
      rw [ha, ih (acc ++ [x]) (by simpa using h)]
      simp

/-- Deduplication is the identity on duplicate-free lists. -/
theorem uniqueInOrder_of_nodup {l : List String} (h : l.Nodup) : uniqueInOrder l = l := by
  unfold uniqueInOrder
  have hres := foldl_addUnique_of_nodup l [] (by simpa using h)
  simpa using hres

/-- Mapping a pointwise-fixed function is the identity. -/
theorem map_eq_self_of_fixed {α : Type _} {l : List α} {f : α → α}
    (h : ∀ x ∈ l, f x = x) : l.map f = l := by
  induction l with
  | nil => rfl
  | cons x rest ih =>
      rw [List.map_cons, h x (List.mem_cons_self _ _),
        ih (fun y hy => h y (List.mem_cons_of_mem _ hy))]

/-- Tidying a node is idempotent. -/
theorem tidyNode_idem (d : DomainNode) : tidyNode (tidyNode d) = tidyNode d := by
  unfold tidyNode
  simp only
  congr 1
  have hnd : (List.insertionSort lowerLe (uniqueInOrder d.subdomains)).Nodup :=
    (List.Perm.nodup_iff (List.perm_insertionSort _ _)).mpr (nodup_uniqueInOrder _)
  rw [uniqueInOrder_of_nodup hnd]
  exact List.Sorted.insertionSort_eq (List.sorted_insertionSort _ _)

/-- On a taxonomy with distinct names and none seen yet, the dedup loop
just tidies every node. -/
theorem dedupNodesAux_of_nodup :
    ∀ (nodes : List DomainNode) (seen : List String),
      (∀ n ∈ nodes, n.name ∉ seen) → (nodes.map DomainNode.name).Nodup →
      dedupNodesAux seen nodes = nodes.map tidyNode := by
  intro nodes
  induction nodes with
  | nil => intro seen _ _; rfl
  | cons d rest ih =>
      intro seen hseen hnd
      rw [dedupNodesAux]
      rw [if_neg (hseen d (List.mem_cons_self _ _))]
      rw [List.map_cons]
      rw [List.map_cons] at hnd
      congr 1
      refine ih (seen ++ [d.name]) ?_ (List.nodup_cons.mp hnd).2
      intro n hn hmem
      rcases List.mem_append.mp hmem with hm | hm
      · exact hseen n (List.mem_cons_of_mem _ hn) hm
      · exact (List.nodup_cons.mp hnd).1
          (List.mem_map.mpr ⟨n, hn, List.mem_singleton.mp hm⟩)

/-- Tidying keeps the name list. -/
theorem map_name_map_tidy (l : List DomainNode) :
    (l.map tidyNode).map DomainNode.name = l.map DomainNode.name := by
  rw [List.map_map]
  congr 1

/-- Facts established by one written run of the synchronizer on a clean
taxonomy: the output has distinct truthy names, contains every used
domain and every dotted key's token, consists of tidied nodes, and is
sorted by name. -/
theorem sync_taxonomy_facts (taxNodes : List DomainNode)
    (papers : List (String × FileRead)) (fk : Bool)
    (hnd : (taxNodes.map DomainNode.name).Nodup)
    (hne : ∀ n ∈ taxNodes, n.name ≠ "")
    (hd : ∀ d ∈ (collect_from_papers papers).2, d ≠ "")
    (hk : ∀ k ∈ (collect_from_papers papers).1, keyDomainOf k ≠ "") :
    (((sync_taxonomy taxNodes papers fk).1.map DomainNode.name).Nodup) ∧
    (∀ n ∈ (sync_taxonomy taxNodes papers fk).1, n.name ≠ "") ∧
    (∀ d ∈ (collect_from_papers papers).2, hasName (sync_taxonomy taxNodes papers fk).1 d) ∧
    (∀ k ∈ (collect_from_papers papers).1,
      hasToken (sync_taxonomy taxNodes papers fk).1 (keyDomainOf k)
        (if fk then k else keyTailOf k)) ∧
    (∀ x ∈ (sync_taxonomy taxNodes papers fk).1, tidyNode x = x) ∧
    List.Sorted nodeNameLe (sync_taxonomy taxNodes papers fk).1 := by
  set st0 : SyncState := ⟨taxNodes, buildIdx taxNodes, [], []⟩ with hst0
  set ds := sortedStrings (collect_from_papers papers).2 with hdsdef
  set ks := sortedStrings (collect_from_papers papers).1 with hksdef
  set st1 := addDomainsPhase st0 ds with hst1
  set st2 := addSubsPhase fk st1 ks with hst2
  have hr1 : (sync_taxonomy taxNodes papers fk).1 =
      List.insertionSort nodeNameLe (dedupNodesAux [] st2.nodes) := rfl
  have hinv0 : SyncInv st0.nodes st0.idx := syncInv_init taxNodes hnd hne
  have hds' : ∀ d ∈ ds, d ≠ "" := by
    intro d hdm
    rw [hdsdef] at hdm
    unfold sortedStrings at hdm
    exact hd d ((List.mem_insertionSort _).mp hdm)
  obtain ⟨hinv1, hnames1⟩ := addDomainsPhase_post ds st0 hinv0 hds'
  have hks' : ∀ k ∈ ks, keyDomainOf k ≠ "" := by
    intro k hkm
    rw [hksdef] at hkm
    unfold sortedStrings at hkm
    exact hk k ((List.mem_insertionSort _).mp hkm)
  obtain ⟨hinv2, htoks⟩ := addSubsPhase_post fk ks st1 hinv1 hks'
  have hdedup : dedupNodesAux [] st2.nodes = st2.nodes.map tidyNode :=
    dedupNodesAux_of_nodup st2.nodes [] (by simp) hinv2.nodup
  have hperm : (sync_taxonomy taxNodes papers fk).1.Perm (st2.nodes.map tidyNode) := by
    rw [hr1, hdedup]
    exact List.perm_insertionSort _ _
  refine ⟨?_, ?_, ?_, ?_, ?_, ?_⟩
  · have hpn : ((sync_taxonomy taxNodes papers fk).1.map DomainNode.name).Perm
        ((st2.nodes.map tidyNode).map DomainNode.name) := hperm.map _
    rw [hpn.nodup_iff, map_name_map_tidy]
    exact hinv2.nodup
  · intro n hn
    have := hperm.mem_iff.mp hn
    obtain ⟨y, hy, hty⟩ := List.mem_map.mp this
    rw [← hty]
    show y.name ≠ ""
    exact hinv2.namesNe y hy
  · intro d hdm
    have h1 : hasName st1.nodes d := by
      refine hnames1 d ?_
      rw [hdsdef]
      unfold sortedStrings
      exact (List.mem_insertionSort _).mpr hdm
    have h2 : hasName st2.nodes d := hasName_mono (addSubsPhase_keeps fk ks st1) h1
    obtain ⟨n, hn, hname⟩ := h2
    refine ⟨tidyNode n, hperm.mem_iff.mpr (List.mem_map_of_mem _ hn), ?_⟩
    show n.name = d
    exact hname
  · intro k hkm
    have h2 : hasToken st2.nodes (keyDomainOf k) (if fk then k else keyTailOf k) := by
      refine htoks k ?_
      rw [hksdef]
      unfold sortedStrings
      exact (List.mem_insertionSort _).mpr hkm
    obtain ⟨n, hn, hname, htok⟩ := h2
    refine ⟨tidyNode n, hperm.mem_iff.mpr (List.mem_map_of_mem _ hn), hname, ?_⟩
    exact mem_subdomains_tidyNode htok
  · intro x hx
    obtain ⟨y, _, hty⟩ := List.mem_map.mp (hperm.mem_iff.mp hx)
    rw [← hty]
    exact tidyNode_idem y
  · rw [hr1]
    exact List.sorted_insertionSort _ _

/-- A second synchronizer pass over a taxonomy that already contains every
used domain and token, is tidy and sorted, changes nothing and reports no
additions. -/
theorem sync_taxonomy_fixed (nodes₁ : List DomainNode)
    (papers : List (String × FileRead)) (fk : Bool)
    (hnd1 : (nodes₁.map DomainNode.name).Nodup)
    (hne1 : ∀ n ∈ nodes₁, n.name ≠ "")
    (hhasN : ∀ d ∈ (collect_from_papers papers).2, hasName nodes₁ d)
    (hhasT : ∀ k ∈ (collect_from_papers papers).1,
      hasToken nodes₁ (keyDomainOf k) (if fk then k else keyTailOf k))
    (htidy : ∀ x ∈ nodes₁, tidyNode x = x)
    (hsorted : List.Sorted nodeNameLe nodes₁) :
    sync_taxonomy nodes₁ papers fk = (nodes₁, [], []) := by
  set st0 : SyncState := ⟨nodes₁, buildIdx nodes₁, [], []⟩ with hst0
  set ds := sortedStrings (collect_from_papers papers).2 with hdsdef
  set ks := sortedStrings (collect_from_papers papers).1 with hksdef
  have hinv0 : SyncInv st0.nodes st0.idx := syncInv_init nodes₁ hnd1 hne1
  have h1 : addDomainsPhase st0 ds = st0 := by
    apply addDomainsPhase_noop
    intro d hdm
    have hmemc : d ∈ (collect_from_papers papers).2 := by
      rw [hdsdef] at hdm
      unfold sortedStrings at hdm
      exact (List.mem_insertionSort _).mp hdm
    obtain ⟨n, hn, hname⟩ := hhasN d hmemc
    have hs := hinv0.compl n hn
    rw [hname] at hs
    exact hs
  have h2 : addSubsPhase fk st0 ks = st0 := by
    apply addSubsPhase_noop
    intro k hkm
    have hmemc : k ∈ (collect_from_papers papers).1 := by
      rw [hksdef] at hkm
      unfold sortedStrings at hkm
      exact (List.mem_insertionSort _).mp hkm
    obtain ⟨n, hn, hname, htok⟩ := hhasT k hmemc
    have hs := hinv0.compl n hn
    rcases hix : idxOf st0.idx n.name with _ | i
    · rw [hix] at hs
      simp at hs
    · obtain ⟨hlt, hnamei⟩ := hinv0.idxOk _ _ hix
      have hgi : st0.nodes[i]? = some (st0.nodes.get ⟨i, hlt⟩) := by
        rw [List.getElem?_eq_getElem hlt, List.get_eq_getElem]
      obtain ⟨j, hgetj⟩ := List.mem_iff_get.mp hn
      have hij : i = (j : Nat) := by
        refine name_get_inj hnd1 hlt j.isLt ?_
        show (nodes₁.get ⟨i, hlt⟩).name = (nodes₁.get ⟨(j : Nat), j.isLt⟩).name
        have hj' : nodes₁.get ⟨(j : Nat), j.isLt⟩ = n := by
          rw [← hgetj]
        rw [hj']
        exact hnamei
      have hnode_eq : st0.nodes.get ⟨i, hlt⟩ = n := by
        show nodes₁.get ⟨i, hlt⟩ = n
        have hfe : (⟨i, hlt⟩ : Fin nodes₁.length) = ⟨(j : Nat), j.isLt⟩ := Fin.ext hij
        rw [hfe]
        rw [← hgetj]
      refine addSubStep_noop fk st0 k i (st0.nodes.get ⟨i, hlt⟩) ?_ hgi ?_
      · rw [← hname]
        exact hix
      · rw [hnode_eq]
        exact htok
  have hsync : sync_taxonomy nodes₁ papers fk =
      (List.insertionSort nodeNameLe
        (dedupNodesAux [] (addSubsPhase fk (addDomainsPhase st0 ds) ks).nodes),
       (addSubsPhase fk (addDomainsPhase st0 ds) ks).addedDomains,
       (addSubsPhase fk (addDomainsPhase st0 ds) ks).addedSubs) := rfl
  rw [hsync, h1, h2]
  have hded : dedupNodesAux [] st0.nodes = st0.nodes.map tidyNode :=
    dedupNodesAux_of_nodup _ _ (by simp) hnd1
  show (List.insertionSort nodeNameLe (dedupNodesAux [] nodes₁), ([] : List String),
    ([] : List String)) = (nodes₁, [], [])
  rw [show dedupNodesAux [] nodes₁ = nodes₁.map tidyNode from hded]
  rw [map_eq_self_of_fixed htidy]
  rw [List.Sorted.insertionSort_eq hsorted]

/-- The claim C2 (amended): over an unchanged paper set, when the first
run actually writes (no dry-run), the input taxonomy has pairwise
distinct non-empty domain names, and the papers yield no empty domain
name or empty dotted-key prefix, a second run with the same flags reports
zero added domains and zero added subdomains and leaves the taxonomy
content unchanged. -/
theorem sync_second_run_no_additions (taxNodes : List DomainNode)
    (papers : List (String × FileRead)) (fk : Bool)
    (hnd : (taxNodes.map DomainNode.name).Nodup)
    (hne : ∀ n ∈ taxNodes, n.name ≠ "")
    (hd : ∀ d ∈ (collect_from_papers papers).2, d ≠ "")
    (hk : ∀ k ∈ (collect_from_papers papers).1, keyDomainOf k ≠ "") :
    syncRun (syncRun (some taxNodes) papers fk false).1 papers fk false =
      ((syncRun (some taxNodes) papers fk false).1, [], []) := by
  obtain ⟨f1, f2, f3, f4, f5, f6⟩ := sync_taxonomy_facts taxNodes papers fk hnd hne hd hk
  have hcore := sync_taxonomy_fixed (sync_taxonomy taxNodes papers fk).1 papers fk
    f1 f2 f3 f4 f5 f6
  show syncRun (some (sync_taxonomy taxNodes papers fk).1) papers fk false = _
  unfold syncRun
  simp only [Option.getD_some, hcore]
  simp

/-- Counterexample to the claim C2 as stated: with the dry-run flag (part
of "the same flags"), a first run reports one added domain but writes
nothing, so the second run reports the same added domain again instead of
zero additions. -/
theorem sync_twice_dry_run_counterexample :
    (syncRun (syncRun none
        [("p", FileRead.ok (Yaml.map [("domains", Yaml.list [Yaml.str "a"])]))]
        false true).1
      [("p", FileRead.ok (Yaml.map [("domains", Yaml.list [Yaml.str "a"])]))]
      false true).2.1 = ["a"] := by decide

/-- Witness for `sync_second_run_no_additions` on a concrete clean
taxonomy and paper set. -/
theorem sync_second_run_no_additions_witness :
    (((([⟨"a", ["x"]⟩] : List DomainNode)).map DomainNode.name).Nodup) ∧
    (syncRun (syncRun (some [⟨"a", ["x"]⟩])
        [("p", FileRead.ok (Yaml.map [("domains", Yaml.list [Yaml.str "b"]),
          ("subdomains", Yaml.map [("b.c", Yaml.nul)])]))] false false).1
      [("p", FileRead.ok (Yaml.map [("domains", Yaml.list [Yaml.str "b"]),
        ("subdomains", Yaml.map [("b.c", Yaml.nul)])]))] false false) =
      ((syncRun (some [⟨"a", ["x"]⟩])
        [("p", FileRead.ok (Yaml.map [("domains", Yaml.list [Yaml.str "b"]),
          ("subdomains", Yaml.map [("b.c", Yaml.nul)])]))] false false).1, [], []) := by
  refine ⟨by decide, ?_⟩
  exact sync_second_run_no_additions [⟨"a", ["x"]⟩] _ false (by decide)
    (by decide) (by decide) (by decide)

/-- Counterexample to the claim C4 as stated: an unreadable YAML file is
not fatal and does not stop processing.  The validator records the
per-file error and continues (the second file's error is also reported),
and the synchronizer skips the unreadable file with a warning, runs to
completion and produces its full output. -/
theorem unreadable_yaml_not_fatal_counterexample :
    validateMain true true (fun _ => []) []
      [("p1", FileRead.err "boom"), ("p2", FileRead.ok (Yaml.map []))] =
      VResult.report ["p1: cannot read YAML (boom)",
        "p2: missing 'domains' (or legacy 'domain')."] ∧
    (sync_taxonomy [] [("p1", FileRead.err "boom"),
      ("p2", FileRead.ok (Yaml.map [("domains", Yaml.list [Yaml.str "a"])]))] false) =
      ([⟨"a", []⟩], ["a"], []) := by decide

/-- The claim C4 (amended): a missing schema or taxonomy file (validator)
and a missing CSV or missing required CSV columns (mindmap renderer) are
fatal: the process stops at once with exit status 1 and no output (the
validator prints these messages to stdout, the renderer to stderr).
Unreadable YAML, however, is not fatal: the validator collects a per-file
error and continues with the remaining files, and the synchronizer skips
the file and continues. -/
theorem fatal_failures_fatal_unreadable_not (sc : Yaml → List String)
    (taxNodes : List DomainNode) (files : List (String × FileRead))
    (csvPath : String) (c : Csv) (hmiss : missingCols c ≠ [])
    (p m : String) (rest : List (String × FileRead)) (tax : ValTax) :
    (validateMain false true sc taxNodes files = VResult.missingSchema ∧
      (validateMain false true sc taxNodes files).exitCode = 1) ∧
    (validateMain true false sc taxNodes files = VResult.missingTaxonomy ∧
      (validateMain true false sc taxNodes files).exitCode = 1) ∧
    (markmapMain false csvPath c = .fatal ("CSV not found: " ++ csvPath) ∧
      (markmapMain false csvPath c).exitCode = 1) ∧
    (markmapMain true csvPath c =
        .fatal ("CSV missing required columns: " ++ pyListRender (missingCols c)) ∧
      (markmapMain true csvPath c).exitCode = 1) ∧
    (allFilesErrors sc tax ((p, FileRead.err m) :: rest) =
      (p ++ ": cannot read YAML (" ++ m ++ ")") :: allFilesErrors sc tax rest) ∧
    (collect_from_papers ((p, FileRead.err m) :: rest) = collect_from_papers rest) := by
  refine ⟨⟨rfl, rfl⟩, ⟨rfl, rfl⟩, ⟨rfl, rfl⟩, ?_, rfl, rfl⟩
  have hm : (missingCols c).isEmpty = false := by
    rw [List.isEmpty_eq_false]
    exact hmiss
  constructor
  · unfold markmapMain loadCsv
    rw [hm]
    rfl
  · unfold MarkmapResult.exitCode markmapMain loadCsv
    rw [hm]
    rfl

/-- Witness for `fatal_failures_fatal_unreadable_not` at a CSV whose
header lacks three of the required columns. -/
theorem fatal_failures_witness :
    (missingCols ⟨["domain"], []⟩ ≠ []) ∧
    markmapMain true "plot/x.csv" ⟨["domain"], []⟩ =
      .fatal ("CSV missing required columns: " ++
        pyListRender (missingCols ⟨["domain"], []⟩)) := by
  refine ⟨by decide, ?_⟩
  exact (fatal_failures_fatal_unreadable_not (fun _ => []) [] [] "plot/x.csv"
    ⟨["domain"], []⟩ (by decide) "p" "m" [] ⟨[], []⟩).2.2.2.1.1

/-- Dict extension never loses a recorded item. -/
theorem alExtend_preserves {m : List (String × List Yaml)} {k : String}
    {xs : List Yaml} {k₀ t₀ : String}
    (h : ∃ e ∈ m, e.1 = k₀ ∧ ∃ y ∈ e.2, Yaml.toStr y = t₀) :
    ∃ e ∈ alExtend m k xs, e.1 = k₀ ∧ ∃ y ∈ e.2, Yaml.toStr y = t₀ := by
  obtain ⟨e, he, hk, y, hy, ht⟩ := h
  unfold alExtend
  split
  · refine ⟨if e.1 = k then (e.1, e.2 ++ xs) else e, List.mem_map_of_mem _ he, ?_⟩
    split
    · exact ⟨hk, y, List.mem_append_left _ hy, ht⟩
    · exact ⟨hk, y, hy, ht⟩
  · exact ⟨e, List.mem_append_left _ he, hk, y, hy, ht⟩

/-- Dict extension records each added item under the key. -/
theorem alExtend_adds {m : List (String × List Yaml)} {k : String}
    {xs : List Yaml} {x : Yaml} (hx : x ∈ xs) :
    ∃ e ∈ alExtend m k xs, e.1 = k ∧ x ∈ e.2 := by
  unfold alExtend
  split
  · rename_i hmem
    obtain ⟨e₀, he₀, hk₀⟩ := List.mem_map.mp hmem
    refine ⟨(e₀.1, e₀.2 ++ xs), ?_, hk₀, List.mem_append_right _ hx⟩
    have himg : (fun e => if e.1 = k then (e.1, e.2 ++ xs) else e) e₀ =
        (e₀.1, e₀.2 ++ xs) := by
      show (if e₀.1 = k then (e₀.1, e₀.2 ++ xs) else e₀) = (e₀.1, e₀.2 ++ xs)
      rw [if_pos hk₀]
    rw [← himg]
    exact List.mem_map_of_mem _ he₀
  · exact ⟨(k, xs), List.mem_append_right _ (List.mem_singleton.mpr rfl), rfl, hx⟩

/-- The classification loop never loses a recorded item. -/
theorem migrateItems_preserves {k₀ t₀ : String} (k : String) :
    ∀ (items : List Yaml) (m : List (String × List Yaml)),
      (∃ e ∈ m, e.1 = k₀ ∧ ∃ y ∈ e.2, Yaml.toStr y = t₀) →
      ∃ e ∈ migrateItems k m items, e.1 = k₀ ∧ ∃ y ∈ e.2, Yaml.toStr y = t₀ := by
  intro items
  induction items with
  | nil => intro m h; exact h
  | cons it rest ih =>
      intro m h
      rw [migrateItems]
      rcases hg : guess_key it.toStr with _ | key
      · simp only [hg]
        exact ih _ (alExtend_preserves h)
      · simp only [hg]
        exact ih _ (alExtend_preserves h)

/-- An unmatched item of a group key ends in the UNMAPPED bucket. -/
theorem migrateItems_adds (k : String) {it : Yaml}
    (hnone : guess_key it.toStr = none) :
    ∀ (items : List Yaml) (m : List (String × List Yaml)), it ∈ items →
      ∃ e ∈ migrateItems k m items, e.1 = k ++ ".UNMAPPED" ∧
        ∃ y ∈ e.2, Yaml.toStr y = Yaml.toStr it := by
  intro items
  induction items with
  | nil => intro m h; exact absurd h (List.not_mem_nil _)
  | cons x rest ih =>
      intro m hmem
      rw [migrateItems]
      rcases List.mem_cons.mp hmem with he | hm
      · subst he
        simp only [hnone]
        refine migrateItems_preserves k rest _ ?_
        obtain ⟨e, he2, hk, hx⟩ :=
          @alExtend_adds m (k ++ ".UNMAPPED") [it] it (List.mem_singleton.mpr rfl)
        exact ⟨e, he2, hk, it, hx, rfl⟩
      · rcases hg : guess_key x.toStr with _ | key
        · simp only [hg]
          exact ih _ hm
        · simp only [hg]
          exact ih _ hm

/-- One migration step never loses a recorded item. -/
theorem migrateStep_preserves {k₀ t₀ : String} (kv : String × Yaml)
    (m : List (String × List Yaml))
    (h : ∃ e ∈ m, e.1 = k₀ ∧ ∃ y ∈ e.2, Yaml.toStr y = t₀) :
    ∃ e ∈ migrateStep m kv, e.1 = k₀ ∧ ∃ y ∈ e.2, Yaml.toStr y = t₀ := by
  unfold migrateStep
  split
  · exact alExtend_preserves h
  · exact migrateItems_preserves _ _ _ h

/-- The whole migration loop never loses a recorded item. -/
theorem foldl_migrateStep_preserves {k₀ t₀ : String} :
    ∀ (subs : List (String × Yaml)) (m : List (String × List Yaml)),
      (∃ e ∈ m, e.1 = k₀ ∧ ∃ y ∈ e.2, Yaml.toStr y = t₀) →
      ∃ e ∈ subs.foldl migrateStep m, e.1 = k₀ ∧ ∃ y ∈ e.2, Yaml.toStr y = t₀ := by
  intro subs
  induction subs with
  | nil => intro m h; exact h
  | cons kv rest ih =>
      intro m h
      rw [List.foldl_cons]
      exact ih _ (migrateStep_preserves kv m h)

/-- An unmatched item of a group key survives the whole migration loop. -/
theorem migrate_fold_adds {k : String} {v it : Yaml}
    (hundot : pyHasChar k '.' = false) (hit : it ∈ ensure_list v)
    (hnone : guess_key it.toStr = none) :
    ∀ (subs : List (String × Yaml)) (m : List (String × List Yaml)),
      (k, v) ∈ subs →
      ∃ e ∈ subs.foldl migrateStep m, e.1 = k ++ ".UNMAPPED" ∧
        ∃ y ∈ e.2, Yaml.toStr y = Yaml.toStr it := by
  intro subs
  induction subs with
  | nil => intro m h; exact absurd h (List.not_mem_nil _)
  | cons kv rest ih =>
      intro m hmem
      rw [List.foldl_cons]
      rcases List.mem_cons.mp hmem with he | hm
      · refine foldl_migrateStep_preserves rest _ ?_
        rw [← he]
        unfold migrateStep
        rw [hundot]
        simp only [Bool.false_eq_true, if_false]
        exact migrateItems_adds k hnone (ensure_list v) m hit
      · exact ih _ hm

/-- Per-key dedup keeps a representative of every recorded string. -/
theorem dedupByStrAux_exists :
    ∀ (xs vals : List Yaml) (seen : List String) (t : String),
      (∀ s ∈ seen, ∃ y ∈ vals, Yaml.toStr y = s) →
      ((∃ y ∈ vals, Yaml.toStr y = t) ∨ (∃ y ∈ xs, Yaml.toStr y = t)) →
      ∃ y ∈ dedupByStrAux vals seen xs, Yaml.toStr y = t := by
  intro xs
  induction xs with
  | nil =>
      intro vals seen t _ hcase
      rcases hcase with h | h
      · exact h
      · obtain ⟨y, hy, _⟩ := h
        exact absurd hy (List.not_mem_nil _)
  | cons x rest ih =>
      intro vals seen t hinv hcase
      rw [dedupByStrAux]
      rcases Decidable.em (x.toStr ∈ seen) with hs | hs
      · rw [if_pos hs]
        refine ih vals seen t hinv ?_
        rcases hcase with h | h
        · exact Or.inl h
        · obtain ⟨y, hy, ht⟩ := h
          rcases List.mem_cons.mp hy with he | hm
          · subst he
            obtain ⟨z, hz, hzs⟩ := hinv y.toStr hs
            exact Or.inl ⟨z, hz, by rw [hzs, ht]⟩
          · exact Or.inr ⟨y, hm, ht⟩
      · rw [if_neg hs]
        refine ih (vals ++ [x]) (seen ++ [x.toStr]) t ?_ ?_
        · intro s hsm
          rcases List.mem_append.mp hsm with h1 | h1
          · obtain ⟨y, hy, hys⟩ := hinv s h1
            exact ⟨y, List.mem_append_left _ hy, hys⟩
          · exact ⟨x, List.mem_append_right _ (List.mem_singleton.mpr rfl),
              (List.mem_singleton.mp h1).symm⟩
        · rcases hcase with h | h
          · obtain ⟨y, hy, ht⟩ := h
            exact Or.inl ⟨y, List.mem_append_left _ hy, ht⟩
          · obtain ⟨y, hy, ht⟩ := h
            rcases List.mem_cons.mp hy with he | hm
            · subst he
              exact Or.inl ⟨y, List.mem_append_right _ (List.mem_singleton.mpr rfl), ht⟩
            · exact Or.inr ⟨y, hm, ht⟩

/-- Dedup-and-sort keeps a representative of every recorded string. -/
theorem tidyEntry_exists {xs : List Yaml} {t : String}
    (h : ∃ y ∈ xs, Yaml.toStr y = t) : ∃ y ∈ tidyEntry xs, Yaml.toStr y = t := by
  unfold tidyEntry
  obtain ⟨y, hy, ht⟩ := dedupByStrAux_exists xs [] [] t
    (by intro s hs; exact absurd hs (List.not_mem_nil _)) (Or.inr h)
  exact ⟨y, (List.mem_insertionSort _).mpr hy, ht⟩

/-- The claim C8: the keyword classifier applies its rules in order with
first match winning, so `guess_key "PM2.5 exposure"` yields
`chemical.airpollution.ambient` (the first rule matches); and any item of
a group (undotted) key matched by no rule ends in the
`<groupkey>.UNMAPPED` bucket of the normalized mapping, represented by an
element with its `str()` value. -/
theorem keyword_classifier_rules :
    guess_key "PM2.5 exposure" = some "chemical.airpollution.ambient" ∧
    ∀ (subs : List (String × Yaml)) (k : String) (v it : Yaml),
      (k, v) ∈ subs → pyHasChar k '.' = false → it ∈ ensure_list v →
      guess_key it.toStr = none →
      ∃ e ∈ migrateDoc subs, e.1 = k ++ ".UNMAPPED" ∧
        ∃ y ∈ e.2, Yaml.toStr y = Yaml.toStr it := by
  refine ⟨by decide, ?_⟩
  intro subs k v it hmem hundot hit hnone
  obtain ⟨e, he, hk, hy⟩ := migrate_fold_adds hundot hit hnone subs [] hmem
  show ∃ e ∈ List.insertionSort entryKeyLe
    ((subs.foldl migrateStep []).map (fun e => (e.1, tidyEntry e.2))), _
  refine ⟨(e.1, tidyEntry e.2), ?_, hk, ?_⟩
  · rw [List.mem_insertionSort]
    exact List.mem_map_of_mem _ he
  · exact tidyEntry_exists hy

/-- Witness for `keyword_classifier_rules` on a concrete unmatched item. -/
theorem keyword_classifier_rules_witness :
    (("social", Yaml.list [Yaml.str "qqzz"]) ∈
      [("social", Yaml.list [Yaml.str "qqzz"])]) ∧
    pyHasChar "social" '.' = false ∧
    Yaml.str "qqzz" ∈ ensure_list (Yaml.list [Yaml.str "qqzz"]) ∧
    guess_key (Yaml.str "qqzz").toStr = none ∧
    ∃ e ∈ migrateDoc [("social", Yaml.list [Yaml.str "qqzz"])],
      e.1 = "social" ++ ".UNMAPPED" ∧
      ∃ y ∈ e.2, Yaml.toStr y = Yaml.toStr (Yaml.str "qqzz") := by
  refine ⟨List.mem_singleton.mpr rfl, by decide, List.mem_singleton.mpr rfl,
    by decide, ?_⟩
  exact keyword_classifier_rules.2 _ "social" _ _ (List.mem_singleton.mpr rfl)
    (by decide) (List.mem_singleton.mpr rfl) (by decide)
